import Mathlib

/-!
Verification of the SSH config store in `internal/config/ssh.go`.

Lines and field values are modelled as `List Char` (`GoString`), so that the
byte-level string surgery of the Go code (trimming, whitespace splitting,
prefix tests, line splitting/joining) is embedded faithfully and remains
executable.  The file system is modelled as the content of the config file
plus the content of its backup file.
-/

set_option maxHeartbeats 1000000

abbrev GoString := List Char

/-- Coerce a Lean string literal to the `List Char` representation. -/
def gs (s : String) : GoString := s.data

/-- Whitespace test used by `strings.TrimSpace` and `strings.Fields`
(`unicode.IsSpace`), restricted to the ASCII whitespace characters. -/
def goIsSpace (c : Char) : Bool :=
  c == ' ' || c == '\t' || c == '\n' || c == '\u000b' || c == '\u000c' || c == '\r'

/-- Left part of `strings.TrimSpace`: drop leading whitespace. -/
def goTrimLeft : GoString → GoString
  | [] => []
  | c :: cs => if goIsSpace c then goTrimLeft cs else c :: cs

/-- Right part of `strings.TrimSpace`: drop trailing whitespace. -/
def goTrimRight : GoString → GoString
  | [] => []
  | c :: cs =>
    let r := goTrimRight cs
    if r = [] ∧ goIsSpace c then [] else c :: r

/-- `strings.TrimSpace`. -/
def goTrimSpace (l : GoString) : GoString := goTrimRight (goTrimLeft l)

/-- `strings.HasPrefix pre l` (arguments: the candidate previous part first). -/
def goStartsWith : GoString → GoString → Bool
  | [], _ => true
  | _ :: _, [] => false
  | p :: ps, c :: cs => p == c && goStartsWith ps cs

/-- Split the leading maximal run of non-whitespace characters from the rest. -/
def goTok : GoString → GoString × GoString
  | [] => ([], [])
  | c :: cs =>
    if goIsSpace c then ([], c :: cs)
    else
      let (t, r) := goTok cs
      (c :: t, r)

theorem goTok_snd_length_le : ∀ cs : GoString, (goTok cs).2.length ≤ cs.length := by
  intro cs
  induction cs with
  | nil => simp [goTok]
  | cons c cs ih =>
    simp only [goTok]
    split
    · simp
    · simpa using Nat.le_succ_of_le ih

/-- `strings.Fields`: split on runs of whitespace, no empty fields.  Written
with structural recursion (a new field opens after a space or at the start);
`goFields_cons_of_not_space` below recovers the usual take-a-token reading. -/
def goFields : GoString → List GoString
  | [] => []
  | c :: cs =>
    if goIsSpace c then goFields cs
    else
      match cs, goFields cs with
      | [], _ => [[c]]
      | d :: _, fs =>
        if goIsSpace d then [c] :: fs
        else
          match fs with
          | t :: ts => (c :: t) :: ts
          | [] => [[c]]

theorem goFields_cons (c : Char) (cs : GoString) :
    goFields (c :: cs) =
      if goIsSpace c then goFields cs
      else
        match cs, goFields cs with
        | [], _ => [[c]]
        | d :: _, fs =>
          if goIsSpace d then [c] :: fs
          else
            match fs with
            | t :: ts => (c :: t) :: ts
            | [] => [[c]] := rfl

/-- The head field of a non-space start is the maximal non-space run, and the
remaining fields are the fields of the rest: `goFields` agrees with the
token-splitting reading of `strings.Fields`. -/
theorem goFields_cons_of_not_space {c : Char} (hc : ¬ goIsSpace c) :
    ∀ cs : GoString, goFields (c :: cs) = (c :: (goTok cs).1) :: goFields (goTok cs).2 := by
  intro cs
  induction cs generalizing c with
  | nil => simp [goFields, goTok, hc]
  | cons d ds ih =>
    by_cases hd : goIsSpace d
    · simp [goFields, goTok, hc, hd]
    · rw [goFields_cons, if_neg hc, ih hd]
      simp [goTok, hd]

theorem dropWhileLenLe {α : Type} (p : α → Bool) :
    ∀ l : List α, (List.dropWhile p l).length ≤ l.length := by
  intro l
  induction l with
  | nil => simp
  | cons a l ih =>
    rw [List.dropWhile_cons]
    split
    · exact Nat.le_succ_of_le ih
    · simp

theorem tailLenLe {α : Type} (l : List α) : l.tail.length ≤ l.length := by
  cases l <;> simp

/-- `strings.Split l (String.singleton sep)`: always returns at least one part. -/
def goSplitOn (sep : Char) : GoString → List GoString
  | [] => [[]]
  | c :: cs =>
    if c = sep then [] :: goSplitOn sep cs
    else
      match goSplitOn sep cs with
      | [] => [[c]]
      | t :: ts => (c :: t) :: ts

/-- `strings.Join parts sep`. -/
def goJoin (sep : GoString) : List GoString → GoString
  | [] => []
  | [x] => x
  | x :: y :: ys => x ++ sep ++ goJoin sep (y :: ys)

/-- `strings.ToLower` (ASCII keys only are ever lowered by the program). -/
def goToLower (l : GoString) : GoString := l.map Char.toLower

/-- `strings.TrimPrefix`. -/
def goTrimPre (pre l : GoString) : GoString :=
  if goStartsWith pre l = true then l.drop pre.length else l

/-- `bufio.ScanLines` drops one carriage return at the end of a line. -/
def dropCR (l : GoString) : GoString :=
  if l.getLast? = some '\r' then l.dropLast else l

def scanLinesAux (cur : GoString) : GoString → List GoString
  | [] => [dropCR cur.reverse]
  | c :: cs =>
    if c = '\n' then
      dropCR cur.reverse :: (match cs with | [] => [] | _ :: _ => scanLinesAux [] cs)
    else scanLinesAux (c :: cur) cs

/-- Line splitting as performed by `bufio.Scanner` with `ScanLines`:
no final empty line when the content ends with a newline. -/
def scanLines (s : GoString) : List GoString :=
  match s with
  | [] => []
  | _ :: _ => scanLinesAux [] s

/-- `strings.Split content "\n")` as used by update and delete. -/
def splitNL (s : GoString) : List GoString := goSplitOn '\n' s

/-- Concatenation of lines each terminated by a newline, as produced by the
sequence of `WriteString` calls in `AddSSHHost`. -/
def unlines : List GoString → GoString
  | [] => []
  | l :: ls => l ++ '\n' :: unlines ls

/-- `SSHHost` from ssh.go. -/
structure SSHHost where
  Name : GoString
  Hostname : GoString
  User : GoString
  Port : GoString
  Identity : GoString
  ProxyJump : GoString
  Tags : List GoString
deriving DecidableEq, Inhabited

/-- State of the scanning loop of `ParseSSHConfigFile`. -/
structure ParseState where
  hosts : List SSHHost
  currentHost : Option SSHHost
  pendingTags : List GoString
deriving DecidableEq

def tagsMarker : GoString := gs "# Tags:"

/-- Tag-comment handling in `ParseSSHConfigFile`: trim the `# Tags:` marker,
split on commas, trim each part and append the non-empty ones. -/
def parseTagsInto (line : GoString) (pending : List GoString) : List GoString :=
  let tagsStr := goTrimSpace (goTrimPre tagsMarker line)
  if tagsStr = [] then pending
  else pending ++ ((goSplitOn ',' tagsStr).map goTrimSpace).filter (· ≠ [])

/-- One iteration of the scanner loop of `ParseSSHConfigFile`. -/
def parseLine (st : ParseState) (raw : GoString) : ParseState :=
  let line := goTrimSpace raw
  if line = [] then st
  else if goStartsWith tagsMarker line = true then
    { st with pendingTags := parseTagsInto line st.pendingTags }
  else if goStartsWith (gs "#") line = true then st
  else
    match goFields line with
    | k :: v1 :: vs =>
      let key := goToLower k
      let value := goJoin (gs " ") (v1 :: vs)
      if key = gs "host" then
        { hosts := st.hosts ++ st.currentHost.toList
          currentHost := some { Name := value, Hostname := [], User := [], Port := gs "22",
                                Identity := [], ProxyJump := [], Tags := st.pendingTags }
          pendingTags := [] }
      else if key = gs "hostname" then
        { st with currentHost := st.currentHost.map fun h => { h with Hostname := value } }
      else if key = gs "user" then
        { st with currentHost := st.currentHost.map fun h => { h with User := value } }
      else if key = gs "port" then
        { st with currentHost := st.currentHost.map fun h => { h with Port := value } }
      else if key = gs "identityfile" then
        { st with currentHost := st.currentHost.map fun h => { h with Identity := value } }
      else if key = gs "proxyjump" then
        { st with currentHost := st.currentHost.map fun h => { h with ProxyJump := value } }
      else st
    | _ => st

/-- The scanner loop of `ParseSSHConfigFile` over a list of lines, closing the
last open host at end of input. -/
def parseLinesList (ls : List GoString) : List SSHHost :=
  let st := ls.foldl parseLine { hosts := [], currentHost := none, pendingTags := [] }
  st.hosts ++ st.currentHost.toList

/-- `ParseSSHConfigFile` applied to the content of a readable file. -/
def ParseSSHConfigFile (content : GoString) : List SSHHost :=
  parseLinesList (scanLines content)

/-- A directive line as written by the mutator: four spaces, keyword, one
space, value (`fmt.Sprintf("    HostName %s", ...)` and friends). -/
def dirLine (kw v : GoString) : GoString := gs "    " ++ kw ++ ' ' :: v

/-- The `# Tags: a, b` line written by the mutator. -/
def tagsLineOf (tags : List GoString) : GoString := gs "# Tags: " ++ goJoin (gs ", ") tags

/-- A `Host <name>` declaration line as written by the mutator. -/
def hostDeclLine (name : GoString) : GoString := gs "Host " ++ name

/-- The sequence of lines written by `AddSSHHost` (each `WriteString` writes
one newline-terminated line; the first writes the blank separator). -/
def addHostLines (h : SSHHost) : List GoString :=
  [[]]
  ++ (if h.Tags.length > 0 then [tagsLineOf h.Tags] else [])
  ++ [hostDeclLine h.Name, dirLine (gs "HostName") h.Hostname]
  ++ (if h.User ≠ [] then [dirLine (gs "User") h.User] else [])
  ++ (if h.Port ≠ [] ∧ h.Port ≠ gs "22" then [dirLine (gs "Port") h.Port] else [])
  ++ (if h.Identity ≠ [] then [dirLine (gs "IdentityFile") h.Identity] else [])
  ++ (if h.ProxyJump ≠ [] then [dirLine (gs "ProxyJump") h.ProxyJump] else [])

/-- The replacement block appended to `newLines` by `UpdateSSHHost` (both the
tags-annotated branch and the bare branch write the same block); note that it
has no `ProxyJump` line. -/
def updateBlockLines (h : SSHHost) : List GoString :=
  [[]]
  ++ (if h.Tags.length > 0 then [tagsLineOf h.Tags] else [])
  ++ [hostDeclLine h.Name, dirLine (gs "HostName") h.Hostname]
  ++ (if h.User ≠ [] then [dirLine (gs "User") h.User] else [])
  ++ (if h.Port ≠ [] ∧ h.Port ≠ gs "22" then [dirLine (gs "Port") h.Port] else [])
  ++ (if h.Identity ≠ [] then [dirLine (gs "IdentityFile") h.Identity] else [])

/-- Condition of the inner skip loops of update and delete: a line that is
inside a host block (non-blank and not a new `Host ` declaration). -/
def isBlockBody (l : GoString) : Bool :=
  decide (goTrimSpace l ≠ []) && !goStartsWith (gs "Host ") (goTrimSpace l)

/-- The bare-`Host` matching condition of update and delete:
`strings.HasPrefix(line, "Host ") && strings.Fields(line)[1] == name`
on the trimmed line. -/
def hostLineMatches (name l : GoString) : Bool :=
  goStartsWith (gs "Host ") (goTrimSpace l) && ((goFields (goTrimSpace l))[1]? == some name)

/-- The tags-annotated matching condition of update and delete on the line
following a `# Tags:` line: `strings.TrimSpace(lines[i+1]) == "Host "+name`. -/
def tagsNextMatches (name next : GoString) : Bool :=
  goTrimSpace next == gs "Host " ++ name

/-- Full condition of the tags-annotated branch of update and delete:
the trimmed current line carries the `# Tags:` marker, a next line exists
(`i+1 < len(lines)`), and that next line is exactly `Host <name>`. -/
def tagsBranchCond (name l : GoString) (rest : List GoString) : Bool :=
  goStartsWith tagsMarker (goTrimSpace l) &&
    (match rest.head? with
     | some next => tagsNextMatches name next
     | none => false)

/-- Skip the single blank line after a deleted block if present
(`if i < len(lines) && strings.TrimSpace(lines[i]) == "" { i++ }`). -/
def skipOneBlank : List GoString → List GoString
  | [] => []
  | b :: bs => if goTrimSpace b = [] then bs else b :: bs

theorem skipOneBlank_length_le : ∀ ls : List GoString, (skipOneBlank ls).length ≤ ls.length := by
  intro ls
  cases ls with
  | nil => simp [skipOneBlank]
  | cons b bs => simp only [skipOneBlank]; split <;> simp

/-- The rewrite loop of `UpdateSSHHost`: returns the new lines and the
`hostFound` flag. -/
def updateGo (oldName : GoString) (nh : SSHHost) : List GoString → List GoString × Bool
  | [] => ([], false)
  | l :: rest =>
    if tagsBranchCond oldName l rest = true then
      let after := List.dropWhile isBlockBody rest.tail
      (updateBlockLines nh ++ (updateGo oldName nh after).1, true)
    else if hostLineMatches oldName l = true then
      let after := List.dropWhile isBlockBody rest
      (updateBlockLines nh ++ (updateGo oldName nh after).1, true)
    else
      let r := updateGo oldName nh rest
      (l :: r.1, r.2)
termination_by ls => ls.length
decreasing_by
  all_goals simp only [List.length_cons]
  all_goals first
    | exact Nat.lt_succ_of_le ((dropWhileLenLe _ _).trans (tailLenLe _))
    | exact Nat.lt_succ_of_le (dropWhileLenLe _ _)
    | exact Nat.lt_succ_self _

/-- The rewrite loop of `DeleteSSHHost`: returns the new lines and the
`hostFound` flag. -/
def deleteGo (hostName : GoString) : List GoString → List GoString × Bool
  | [] => ([], false)
  | l :: rest =>
    if tagsBranchCond hostName l rest = true then
      let after := skipOneBlank (List.dropWhile isBlockBody rest.tail)
      ((deleteGo hostName after).1, true)
    else if hostLineMatches hostName l = true then
      let after := skipOneBlank (List.dropWhile isBlockBody rest)
      ((deleteGo hostName after).1, true)
    else
      let r := deleteGo hostName rest
      (l :: r.1, r.2)
termination_by ls => ls.length
decreasing_by
  all_goals simp only [List.length_cons]
  all_goals first
    | exact Nat.lt_succ_of_le ((skipOneBlank_length_le _).trans
        ((dropWhileLenLe _ _).trans (tailLenLe _)))
    | exact Nat.lt_succ_of_le ((skipOneBlank_length_le _).trans (dropWhileLenLe _ _))
    | exact Nat.lt_succ_self _

/-- Result of a store operation. -/
inductive OpResult where
  | ok
  | alreadyExists
  | notFound
  | ioError
deriving DecidableEq

/-- The file system as the store sees it: content of `~/.ssh/config`
(`none` when the file does not exist) and content of its `.backup` sibling. -/
structure FS where
  config : Option GoString
  backup : Option GoString
deriving DecidableEq

/-- `HostExists` on a readable config content. -/
def HostExists (content : GoString) (hostName : GoString) : Bool :=
  (ParseSSHConfigFile content).any (fun h => h.Name == hostName)

/-- `AddSSHHost`: backup when the file exists, fail when `HostExists` errors
(missing file) or reports a collision, otherwise append the serialized block
(the append open is the only step that could create the file). -/
def AddSSHHost (fs : FS) (h : SSHHost) : FS × OpResult :=
  let fs1 := match fs.config with
    | some c => { fs with backup := some c }
    | none => fs
  match fs1.config with
  | none => (fs1, OpResult.ioError)
  | some c =>
    if HostExists c h.Name then (fs1, OpResult.alreadyExists)
    else ({ fs1 with config := some (c ++ unlines (addHostLines h)) }, OpResult.ok)

/-- `UpdateSSHHost`: backup, read, rewrite lines, fail with not-found before
any write when the loop never matched. -/
def UpdateSSHHost (fs : FS) (oldName : GoString) (nh : SSHHost) : FS × OpResult :=
  match fs.config with
  | none => (fs, OpResult.ioError)
  | some c =>
    let fs1 := { fs with backup := some c }
    let r := updateGo oldName nh (splitNL c)
    if r.2 then ({ fs1 with config := some (goJoin (gs "\n") r.1) }, OpResult.ok)
    else (fs1, OpResult.notFound)

/-- `DeleteSSHHost`: backup, read, rewrite lines, fail with not-found before
any write when the loop never matched. -/
def DeleteSSHHost (fs : FS) (hostName : GoString) : FS × OpResult :=
  match fs.config with
  | none => (fs, OpResult.ioError)
  | some c =>
    let fs1 := { fs with backup := some c }
    let r := deleteGo hostName (splitNL c)
    if r.2 then ({ fs1 with config := some (goJoin (gs "\n") r.1) }, OpResult.ok)
    else (fs1, OpResult.notFound)

/-! ### Basic facts about the embedded Go string helpers -/

/-- A whitespace-free non-empty string: a valid single token (e.g. a host
name, which the data model requires to contain no embedded whitespace). -/
def isToken (s : GoString) : Prop := s ≠ [] ∧ ∀ c ∈ s, goIsSpace c = false

instance (s : GoString) : Decidable (isToken s) := by unfold isToken; infer_instance

theorem goTrimLeft_cons_space {c : Char} (hc : goIsSpace c = true) (l : GoString) :
    goTrimLeft (c :: l) = goTrimLeft l := by simp [goTrimLeft, hc]

theorem goTrimLeft_cons_not {c : Char} (hc : goIsSpace c = false) (l : GoString) :
    goTrimLeft (c :: l) = c :: l := by simp [goTrimLeft, hc]

theorem goTrimRight_eq_self {l : GoString} (h : ∀ c ∈ l, goIsSpace c = false) :
    goTrimRight l = l := by
  induction l with
  | nil => rfl
  | cons c cs ih =>
    have hc : goIsSpace c = false := h c (List.mem_cons_self c cs)
    have ih' := ih (fun d hd => h d (List.mem_cons_of_mem c hd))
    simp [goTrimRight, ih', hc]

theorem goTrimRight_nil_of_all_space {l : GoString} (h : ∀ c ∈ l, goIsSpace c = true) :
    goTrimRight l = [] := by
  induction l with
  | nil => rfl
  | cons c cs ih =>
    have hc := h c (List.mem_cons_self c cs)
    have ih' := ih (fun d hd => h d (List.mem_cons_of_mem c hd))
    simp [goTrimRight, ih', hc]

theorem goTrimRight_cons (c : Char) (l : GoString) :
    goTrimRight (c :: l) =
      if goTrimRight l = [] ∧ goIsSpace c then [] else c :: goTrimRight l := rfl

theorem goTrimRight_append (a b : GoString) :
    goTrimRight (a ++ b) =
      if goTrimRight b = [] then goTrimRight a else a ++ goTrimRight b := by
  induction a with
  | nil =>
    simp only [List.nil_append]
    split
    · next h => rw [h]; rfl
    · simp
  | cons c cs ih =>
    by_cases hb : goTrimRight b = []
    · simp only [hb, if_true] at ih ⊢
      rw [List.cons_append, goTrimRight_cons, ih, goTrimRight_cons]
    · simp only [hb, if_false] at ih ⊢
      have hne : goTrimRight (cs ++ b) ≠ [] := by rw [ih]; simp [hb]
      rw [List.cons_append, goTrimRight_cons, if_neg (by simp [hne]), ih, List.cons_append]

theorem goTrimSpace_token {t : GoString} (ht : isToken t) : goTrimSpace t = t := by
  obtain ⟨hne, hall⟩ := ht
  cases t with
  | nil => exact absurd rfl hne
  | cons c cs =>
    have hc := hall c (List.mem_cons_self c cs)
    rw [goTrimSpace, goTrimLeft_cons_not hc, goTrimRight_eq_self hall]

theorem goTrimRight_getLast_not_space :
    ∀ (l : GoString) (c : Char), (goTrimRight l).getLast? = some c → goIsSpace c = false := by
  intro l
  induction l with
  | nil => intro c h; simp [goTrimRight] at h
  | cons d ds ih =>
    intro c h
    by_cases hcase : goTrimRight ds = [] ∧ goIsSpace d = true
    · simp [goTrimRight, if_pos hcase] at h
    · rw [show goTrimRight (d :: ds) = d :: goTrimRight ds by
        simp only [goTrimRight]; rw [if_neg hcase]] at h
      rcases hr : goTrimRight ds with _ | ⟨x, xs⟩
      · rw [hr] at h
        simp at h
        subst h
        rcases Decidable.not_and_iff_or_not.mp hcase with h1 | h2
        · exact absurd hr h1
        · simpa using h2
      · rw [hr] at h
        rw [List.getLast?_cons_cons] at h
        exact ih c (hr ▸ h)

theorem goTok_append {t r : GoString} (ht : ∀ c ∈ t, goIsSpace c = false)
    (hr : ∀ c, r.head? = some c → goIsSpace c = true) :
    goTok (t ++ r) = (t, r) := by
  induction t with
  | nil =>
    cases r with
    | nil => rfl
    | cons c cs => simp [goTok, hr c rfl]
  | cons c cs ih =>
    have hc := ht c (List.mem_cons_self c cs)
    have := ih (fun d hd => ht d (List.mem_cons_of_mem c hd))
    simp [goTok, hc, this]

theorem goFields_space_cons {c : Char} (hc : goIsSpace c = true) (l : GoString) :
    goFields (c :: l) = goFields l := by
  rw [goFields_cons, if_pos hc]

theorem goFields_token_append {t r : GoString} (ht : isToken t)
    (hr : ∀ c, r.head? = some c → goIsSpace c = true) :
    goFields (t ++ r) = t :: goFields r := by
  obtain ⟨hne, hall⟩ := ht
  cases t with
  | nil => exact absurd rfl hne
  | cons c cs =>
    have hc : ¬ goIsSpace c := by
      simp [hall c (List.mem_cons_self c cs)]
    rw [List.cons_append, goFields_cons_of_not_space hc,
        goTok_append (fun d hd => hall d (List.mem_cons_of_mem c hd)) hr]

theorem goFields_token_cons_space {t r : GoString} (ht : isToken t) :
    goFields (t ++ ' ' :: r) = t :: goFields (' ' :: r) := by
  exact goFields_token_append ht (by intro c h; simp at h; subst h; rfl)

theorem goFields_token {t : GoString} (ht : isToken t) : goFields t = [t] := by
  have := @goFields_token_append t [] ht (by intro c h; simp at h)
  simpa [goFields] using this

theorem goFields_nil_of_all_space {l : GoString} (h : ∀ c ∈ l, goIsSpace c = true) :
    goFields l = [] := by
  induction l with
  | nil => rfl
  | cons c cs ih =>
    rw [goFields_space_cons (h c (List.mem_cons_self c cs))]
    exact ih (fun d hd => h d (List.mem_cons_of_mem c hd))

theorem goFields_ne_nil {l : GoString} (h : ∃ c ∈ l, goIsSpace c = false) :
    goFields l ≠ [] := by
  induction l with
  | nil => simp at h
  | cons c cs ih =>
    by_cases hc : goIsSpace c
    · rw [goFields_space_cons hc]
      refine ih ?_
      rcases h with ⟨d, hd, hds⟩
      rcases List.mem_cons.mp hd with rfl | hmem
      · rw [hc] at hds; cases hds
      · exact ⟨d, hmem, hds⟩
    · rw [goFields_cons_of_not_space hc]
      simp

theorem goStartsWith_append (p r : GoString) : goStartsWith p (p ++ r) = true := by
  induction p with
  | nil => rfl
  | cons c cs ih => simp [goStartsWith, ih]

theorem goStartsWith_append_left {p a : GoString} (r : GoString) (h : p.length ≤ a.length) :
    goStartsWith p (a ++ r) = goStartsWith p a := by
  induction p generalizing a with
  | nil => simp [goStartsWith]
  | cons c cs ih =>
    cases a with
    | nil => simp at h
    | cons b bs =>
      simp only [List.cons_append, goStartsWith, List.append_eq]
      rw [ih (by simpa using h)]

theorem goStartsWith_false_of_head {p l : GoString} {pc lc : Char}
    (hp : p.head? = some pc) (hl : l.head? = some lc) (hne : pc ≠ lc) :
    goStartsWith p l = false := by
  cases p with
  | nil => simp at hp
  | cons c cs =>
    cases l with
    | nil => simp at hl
    | cons d ds =>
      simp at hp hl
      subst hp; subst hl
      simp [goStartsWith, hne]

theorem goStartsWith_iff {p l : GoString} :
    goStartsWith p l = true ↔ ∃ r, l = p ++ r := by
  constructor
  · intro h
    induction p generalizing l with
    | nil => exact ⟨l, rfl⟩
    | cons c cs ih =>
      cases l with
      | nil => simp [goStartsWith] at h
      | cons d ds =>
        simp only [goStartsWith, Bool.and_eq_true, beq_iff_eq] at h
        obtain ⟨rfl, h2⟩ := h
        obtain ⟨r, rfl⟩ := ih h2
        exact ⟨r, rfl⟩
  · rintro ⟨r, rfl⟩
    exact goStartsWith_append p r

theorem goSplitOn_no_sep {c : Char} {l : GoString} (h : c ∉ l) :
    goSplitOn c l = [l] := by
  induction l with
  | nil => rfl
  | cons d ds ih =>
    have hd : d ≠ c := by rintro rfl; exact h (List.mem_cons_self d ds)
    have := ih (fun hm => h (List.mem_cons_of_mem d hm))
    simp [goSplitOn, hd, this]

theorem goSplitOn_ne_nil (c : Char) (l : GoString) : goSplitOn c l ≠ [] := by
  cases l with
  | nil => simp [goSplitOn]
  | cons d ds =>
    simp only [goSplitOn]
    split
    · simp
    · split <;> simp

theorem goSplitOn_cons (sep c : Char) (cs : GoString) :
    goSplitOn sep (c :: cs) =
      if c = sep then [] :: goSplitOn sep cs
      else
        match goSplitOn sep cs with
        | [] => [[c]]
        | t :: ts => (c :: t) :: ts := rfl

theorem goSplitOn_append {c : Char} {a : GoString} (b : GoString) (h : c ∉ a) :
    goSplitOn c (a ++ c :: b) = a :: goSplitOn c b := by
  induction a with
  | nil => simp [goSplitOn]
  | cons d ds ih =>
    have hd : d ≠ c := by rintro rfl; exact h (List.mem_cons_self d ds)
    have ih' := ih (fun hm => h (List.mem_cons_of_mem d hm))
    rw [List.cons_append, goSplitOn_cons, if_neg hd, ih']

/-! ### Shape of the serialized lines -/

theorem goJoin_token_ne_nil {ts : List GoString} (sep : GoString)
    (hne : ts ≠ []) (ht : ∀ t ∈ ts, isToken t) : goJoin sep ts ≠ [] := by
  cases ts with
  | nil => exact absurd rfl hne
  | cons t rest =>
    cases rest with
    | nil =>
      have := (ht t (by simp)).1
      simpa [goJoin] using this
    | cons u us =>
      have := (ht t (by simp)).1
      simp only [goJoin]
      intro hcontra
      rcases List.append_eq_nil.mp (List.append_eq_nil.mp hcontra).1 with ⟨h1, _⟩
      exact this h1

theorem goTrimRight_join_tokens {ts : List GoString}
    (hne : ts ≠ []) (ht : ∀ t ∈ ts, isToken t) :
    goTrimRight (goJoin (gs ", ") ts) = goJoin (gs ", ") ts := by
  induction ts with
  | nil => exact absurd rfl hne
  | cons t rest ih =>
    cases rest with
    | nil =>
      simp only [goJoin]
      exact goTrimRight_eq_self (ht t (by simp)).2
    | cons u us =>
      have hr := ih (by simp) (fun x hx => ht x (List.mem_cons_of_mem t hx))
      have hrne : goTrimRight (goJoin (gs ", ") (u :: us)) ≠ [] := by
        rw [hr]
        exact goJoin_token_ne_nil _ (by simp) (fun x hx => ht x (List.mem_cons_of_mem t hx))
      simp only [goJoin]
      rw [List.append_assoc, goTrimRight_append, if_neg (by rw [goTrimRight_append, if_neg hrne]; simp [hrne]),
          goTrimRight_append, if_neg hrne, hr]

/-- Trimming a directive line keeps the keyword in front: the value part is
right-trimmed (away entirely when it is all whitespace). -/
theorem goTrimSpace_dirLine {kw : GoString} (v : GoString) (hkw : isToken kw) :
    goTrimSpace (dirLine kw v) =
      if goTrimRight (' ' :: v) = [] then kw else kw ++ goTrimRight (' ' :: v) := by
  have h4 : goTrimLeft (gs "    " ++ kw ++ ' ' :: v) = goTrimLeft (kw ++ ' ' :: v) := by
    rfl
  obtain ⟨hne, hall⟩ := hkw
  cases kw with
  | nil => exact absurd rfl hne
  | cons c cs =>
    have hc : goIsSpace c = false := hall c (by simp)
    rw [goTrimSpace, dirLine, h4, List.cons_append, goTrimLeft_cons_not hc, ← List.cons_append,
       goTrimRight_append]
    split
    · exact goTrimRight_eq_self hall
    · rfl

theorem goTrimSpace_dirLine_token {kw v : GoString} (hkw : isToken kw) (hv : isToken v) :
    goTrimSpace (dirLine kw v) = kw ++ ' ' :: v := by
  have hvr : goTrimRight v = v := goTrimRight_eq_self hv.2
  have hsp : goTrimRight (' ' :: v) = ' ' :: v := by
    rw [goTrimRight_cons, hvr, if_neg (by simp [hv.1])]
  rw [goTrimSpace_dirLine v hkw, hsp, if_neg (by simp [hv.1])]

theorem goTrimSpace_dirLine_nil {kw : GoString} (hkw : isToken kw) :
    goTrimSpace (dirLine kw []) = kw := by
  rw [goTrimSpace_dirLine [] hkw]
  have : goTrimRight [' '] = [] := goTrimRight_nil_of_all_space (by intro c hc; simp at hc; subst hc; decide)
  rw [if_pos this]

theorem goTrimSpace_hostDecl {n : GoString} (hn : isToken n) :
    goTrimSpace (hostDeclLine n) = gs "Host " ++ n := by
  have : hostDeclLine n = gs "Host" ++ ' ' :: n := rfl
  rw [this, goTrimSpace]
  have h1 : goTrimLeft (gs "Host" ++ ' ' :: n) = gs "Host" ++ ' ' :: n := rfl
  rw [h1, goTrimRight_append]
  have hsp : goTrimRight (' ' :: n) = ' ' :: n := by
    rw [goTrimRight_cons, goTrimRight_eq_self hn.2, if_neg (by simp [hn.1])]
  rw [hsp, if_neg (by simp [hn.1])]
  rfl

theorem goFields_hostDecl {n : GoString} (hn : isToken n) :
    goFields (goTrimSpace (hostDeclLine n)) = [gs "Host", n] := by
  rw [goTrimSpace_hostDecl hn]
  have h1 : (gs "Host ") ++ n = (gs "Host") ++ ' ' :: n := rfl
  rw [h1, goFields_token_cons_space (by decide), goFields_space_cons (by decide), goFields_token hn]

theorem goFields_dirLine_token {kw v : GoString} (hkw : isToken kw) (hv : isToken v) :
    goFields (goTrimSpace (dirLine kw v)) = [kw, v] := by
  rw [goTrimSpace_dirLine_token hkw hv, goFields_token_cons_space hkw,
      goFields_space_cons (by decide), goFields_token hv]

theorem goFields_dirLine_nil {kw : GoString} (hkw : isToken kw) :
    goFields (goTrimSpace (dirLine kw [])) = [kw] := by
  rw [goTrimSpace_dirLine_nil hkw, goFields_token hkw]

/-- The first field of a directive line is always its keyword, whatever the
value text is. -/
theorem goFields_dirLine_head {kw : GoString} (v : GoString) (hkw : isToken kw) :
    (goFields (goTrimSpace (dirLine kw v))).head? = some kw := by
  rw [goTrimSpace_dirLine v hkw]
  split
  · rw [goFields_token hkw]; rfl
  · next h =>
    have hshape : goTrimRight (' ' :: v) = ' ' :: goTrimRight v := by
      rw [goTrimRight_cons]
      split
      · next hx => exact absurd (by rw [goTrimRight_cons, if_pos hx]) h
      · rfl
    rw [hshape, goFields_token_cons_space hkw]
    rfl

theorem goTrimSpace_tagsLineOf {ts : List GoString}
    (hne : ts ≠ []) (ht : ∀ t ∈ ts, isToken t) :
    goTrimSpace (tagsLineOf ts) = tagsLineOf ts := by
  have hsplit : tagsLineOf ts = gs "# Tags:" ++ ' ' :: goJoin (gs ", ") ts := rfl
  rw [hsplit, goTrimSpace]
  have h1 : goTrimLeft (gs "# Tags:" ++ ' ' :: goJoin (gs ", ") ts) =
      gs "# Tags:" ++ ' ' :: goJoin (gs ", ") ts := rfl
  rw [h1, goTrimRight_append]
  have hj := goTrimRight_join_tokens hne ht
  have hjne := goJoin_token_ne_nil (gs ", ") hne ht
  have hsp : goTrimRight (' ' :: goJoin (gs ", ") ts) = ' ' :: goJoin (gs ", ") ts := by
    rw [goTrimRight_cons, hj, if_neg (by simp [hjne])]
  rw [hsp, if_neg (by simp [hjne])]

/-! ### Tags round-trip and parser single-line lemmas -/

theorem goSplitOn_map_trim_space_cons (l : GoString) :
    ((goSplitOn ',' (' ' :: l)).map goTrimSpace) = ((goSplitOn ',' l).map goTrimSpace) := by
  rcases hsp : goSplitOn ',' l with _ | ⟨t, ts⟩
  · exact absurd hsp (goSplitOn_ne_nil ',' l)
  · rw [goSplitOn_cons, if_neg (by decide), hsp]
    simp only [List.map_cons]
    congr 1

theorem tagsSplitRoundTrip {ts : List GoString}
    (h : ∀ t ∈ ts, isToken t ∧ ',' ∉ t) (hne : ts ≠ []) :
    ((goSplitOn ',' (goJoin (gs ", ") ts)).map goTrimSpace).filter (· ≠ []) = ts := by
  induction ts with
  | nil => exact absurd rfl hne
  | cons t rest ih =>
    obtain ⟨htok, hcomma⟩ := h t (by simp)
    cases rest with
    | nil =>
      simp only [goJoin]
      rw [goSplitOn_no_sep hcomma]
      simp [goTrimSpace_token htok, htok.1]
    | cons u us =>
      have hrest := ih (fun x hx => h x (List.mem_cons_of_mem t hx)) (by simp)
      have hshape : goJoin (gs ", ") (t :: u :: us) =
          t ++ ',' :: ' ' :: goJoin (gs ", ") (u :: us) := by
        simp [goJoin, List.append_assoc]; rfl
      rw [hshape, goSplitOn_append _ hcomma]
      simp only [List.map_cons, List.filter_cons]
      rw [goSplitOn_map_trim_space_cons, goTrimSpace_token htok]
      simp only [hrest]
      rw [if_pos (by simpa using htok.1)]

theorem goTrimLeft_token_append {t : GoString} (r : GoString) (ht : isToken t) :
    goTrimLeft (t ++ r) = t ++ r := by
  obtain ⟨hne, hall⟩ := ht
  cases t with
  | nil => exact absurd rfl hne
  | cons c cs => exact goTrimLeft_cons_not (hall c (by simp)) _

theorem parseTagsInto_tagsLineOf {ts : List GoString} (p : List GoString)
    (h : ∀ t ∈ ts, isToken t ∧ ',' ∉ t) (hne : ts ≠ []) :
    parseTagsInto (tagsLineOf ts) p = p ++ ts := by
  have htoks : ∀ t ∈ ts, isToken t := fun t ht => (h t ht).1
  have hjne : goJoin (gs ", ") ts ≠ [] := goJoin_token_ne_nil _ hne htoks
  have hpre : goTrimPre tagsMarker (tagsLineOf ts) = ' ' :: goJoin (gs ", ") ts := by
    have hsplit : tagsLineOf ts = tagsMarker ++ ' ' :: goJoin (gs ", ") ts := rfl
    rw [goTrimPre, hsplit, if_pos (goStartsWith_append _ _), List.drop_left]
  have hleft : goTrimLeft (goJoin (gs ", ") ts) = goJoin (gs ", ") ts := by
    cases ts with
    | nil => exact absurd rfl hne
    | cons t rest =>
      have htok := htoks t (by simp)
      cases rest with
      | nil => simpa [goJoin] using goTrimLeft_token_append [] htok
      | cons u us =>
        have : goJoin (gs ", ") (t :: u :: us) =
            t ++ (gs ", " ++ goJoin (gs ", ") (u :: us)) := by
          simp [goJoin, List.append_assoc]
        rw [this, goTrimLeft_token_append _ htok]
  have htrim : goTrimSpace (' ' :: goJoin (gs ", ") ts) = goJoin (gs ", ") ts := by
    rw [goTrimSpace, goTrimLeft_cons_space (by decide), hleft, goTrimRight_join_tokens hne htoks]
  rw [parseTagsInto, hpre, htrim]
  rw [if_neg hjne, tagsSplitRoundTrip h hne]

theorem goStartsWith_ne_true {p l : GoString} {pc lc : Char}
    (hp : p.head? = some pc) (hl : l.head? = some lc) (hne : pc ≠ lc) :
    ¬ (goStartsWith p l = true) := by
  rw [goStartsWith_false_of_head hp hl hne]; simp

theorem token_append_ne_nil {t : GoString} (ht : isToken t) (r : GoString) : t ++ r ≠ [] := by
  cases t with
  | nil => exact absurd rfl ht.1
  | cons c cs => simp

theorem append_ne_nil_left {l : GoString} (r : GoString) (h : l ≠ []) : l ++ r ≠ [] := by
  cases l with
  | nil => exact absurd rfl h
  | cons c cs => simp

/-- A blank line (empty after trimming) leaves the parser state unchanged. -/
theorem parseLine_blank (st : ParseState) {raw : GoString} (h : goTrimSpace raw = []) :
    parseLine st raw = st := by
  simp [parseLine, h]

/-- A comment line that is not a tags line leaves the parser state unchanged. -/
theorem parseLine_comment (st : ParseState) {raw : GoString}
    (h1 : goTrimSpace raw ≠ [])
    (h2 : goStartsWith tagsMarker (goTrimSpace raw) = false)
    (h3 : goStartsWith (gs "#") (goTrimSpace raw) = true) :
    parseLine st raw = st := by
  simp [parseLine, h1, h2, h3]

/-- A `# Tags:` line written by the serializer appends its labels to the
pending-tags accumulator and changes nothing else. -/
theorem parseLine_tagsLine (st : ParseState) {ts : List GoString}
    (h : ∀ t ∈ ts, isToken t ∧ ',' ∉ t) (hne : ts ≠ []) :
    parseLine st (tagsLineOf ts) =
      { st with pendingTags := st.pendingTags ++ ts } := by
  have htoks : ∀ t ∈ ts, isToken t := fun t ht => (h t ht).1
  have htrim := goTrimSpace_tagsLineOf hne htoks
  have hsw : goStartsWith tagsMarker (tagsLineOf ts) = true := by
    have hsplit : tagsLineOf ts = tagsMarker ++ ' ' :: goJoin (gs ", ") ts := rfl
    rw [hsplit]; exact goStartsWith_append _ _
  have hne2 : tagsLineOf ts ≠ [] := by
    rw [show tagsLineOf ts = tagsMarker ++ ' ' :: goJoin (gs ", ") ts from rfl]
    exact append_ne_nil_left _ (by decide)
  simp only [parseLine, htrim, if_neg hne2, hsw, if_true]
  rw [parseTagsInto_tagsLineOf st.pendingTags h hne]

/-- A `Host <name>` line closes the current host into the output, opens a new
entry with default port `"22"` carrying the pending tags, and clears the
accumulator. -/
theorem parseLine_hostDecl (st : ParseState) {n : GoString} (hn : isToken n) :
    parseLine st (hostDeclLine n) =
      { hosts := st.hosts ++ st.currentHost.toList
        currentHost := some { Name := n, Hostname := [], User := [], Port := gs "22",
                              Identity := [], ProxyJump := [], Tags := st.pendingTags }
        pendingTags := [] } := by
  have htrim := goTrimSpace_hostDecl hn
  have hfields : goFields (gs "Host " ++ n) = [gs "Host", n] := htrim ▸ goFields_hostDecl hn
  have hne2 : gs "Host " ++ n ≠ [] := append_ne_nil_left _ (by decide)
  have hsw1 : ¬ (goStartsWith tagsMarker (gs "Host " ++ n) = true) :=
    goStartsWith_ne_true rfl rfl (by decide)
  have hsw2 : ¬ (goStartsWith (gs "#") (gs "Host " ++ n) = true) :=
    goStartsWith_ne_true rfl rfl (by decide)
  simp only [parseLine, htrim, if_neg hne2, if_neg hsw1, if_neg hsw2, hfields]
  have hkey : goToLower (gs "Host") = gs "host" := by decide
  simp only [hkey, if_pos rfl]
  rfl

/-- A directive line with an empty value has a single field and is skipped. -/
theorem parseLine_dirLine_blank (st : ParseState) {kw : GoString} {c : Char}
    (hkw : isToken kw) (hhead : kw.head? = some c) (hc : c ≠ '#') :
    parseLine st (dirLine kw []) = st := by
  have htrim := goTrimSpace_dirLine_nil hkw
  have hfields := goFields_dirLine_nil hkw
  have hsw1 : ¬ (goStartsWith tagsMarker kw = true) :=
    goStartsWith_ne_true rfl hhead (by rintro rfl; exact hc rfl)
  have hsw2 : ¬ (goStartsWith (gs "#") kw = true) :=
    goStartsWith_ne_true rfl hhead (by rintro rfl; exact hc rfl)
  have hf2 : goFields kw = [kw] := goFields_token hkw
  simp only [parseLine, htrim, if_neg hkw.1, if_neg hsw1, if_neg hsw2, hf2]

/-- A `    HostName <value>` line assigns the Hostname field of the current host
when one is open, and is otherwise ignored. -/
theorem parseLine_dirToken_hostname (st : ParseState) {v : GoString} (hv : isToken v) :
    parseLine st (dirLine (gs "HostName") v) =
      { st with currentHost := st.currentHost.map fun h => { h with Hostname := v } } := by
  have htrim : goTrimSpace (dirLine (gs "HostName") v) = gs "HostName" ++ ' ' :: v :=
    goTrimSpace_dirLine_token (by decide) hv
  have hfields : goFields (gs "HostName" ++ ' ' :: v) = [gs "HostName", v] :=
    htrim ▸ goFields_dirLine_token (by decide) hv
  have hne2 : gs "HostName" ++ ' ' :: v ≠ [] := append_ne_nil_left _ (by decide)
  have hsw1 : ¬ (goStartsWith tagsMarker (gs "HostName" ++ ' ' :: v) = true) :=
    goStartsWith_ne_true rfl rfl (by decide)
  have hsw2 : ¬ (goStartsWith (gs "#") (gs "HostName" ++ ' ' :: v) = true) :=
    goStartsWith_ne_true rfl rfl (by decide)
  simp only [parseLine, htrim, if_neg hne2, if_neg hsw1, if_neg hsw2, hfields]
  rw [if_neg (show ¬ (goToLower (gs "HostName") = gs "host") from by decide),
      if_pos (show goToLower (gs "HostName") = gs "hostname" from by decide)]
  rfl


/-- A `    User <value>` line assigns the User field of the current host
when one is open, and is otherwise ignored. -/
theorem parseLine_dirToken_user (st : ParseState) {v : GoString} (hv : isToken v) :
    parseLine st (dirLine (gs "User") v) =
      { st with currentHost := st.currentHost.map fun h => { h with User := v } } := by
  have htrim : goTrimSpace (dirLine (gs "User") v) = gs "User" ++ ' ' :: v :=
    goTrimSpace_dirLine_token (by decide) hv
  have hfields : goFields (gs "User" ++ ' ' :: v) = [gs "User", v] :=
    htrim ▸ goFields_dirLine_token (by decide) hv
  have hne2 : gs "User" ++ ' ' :: v ≠ [] := append_ne_nil_left _ (by decide)
  have hsw1 : ¬ (goStartsWith tagsMarker (gs "User" ++ ' ' :: v) = true) :=
    goStartsWith_ne_true rfl rfl (by decide)
  have hsw2 : ¬ (goStartsWith (gs "#") (gs "User" ++ ' ' :: v) = true) :=
    goStartsWith_ne_true rfl rfl (by decide)
  simp only [parseLine, htrim, if_neg hne2, if_neg hsw1, if_neg hsw2, hfields]
  rw [if_neg (show ¬ (goToLower (gs "User") = gs "host") from by decide),
      if_neg (show ¬ (goToLower (gs "User") = gs "hostname") from by decide),
      if_pos (show goToLower (gs "User") = gs "user" from by decide)]
  rfl


/-- A `    Port <value>` line assigns the Port field of the current host
when one is open, and is otherwise ignored. -/
theorem parseLine_dirToken_port (st : ParseState) {v : GoString} (hv : isToken v) :
    parseLine st (dirLine (gs "Port") v) =
      { st with currentHost := st.currentHost.map fun h => { h with Port := v } } := by
  have htrim : goTrimSpace (dirLine (gs "Port") v) = gs "Port" ++ ' ' :: v :=
    goTrimSpace_dirLine_token (by decide) hv
  have hfields : goFields (gs "Port" ++ ' ' :: v) = [gs "Port", v] :=
    htrim ▸ goFields_dirLine_token (by decide) hv
  have hne2 : gs "Port" ++ ' ' :: v ≠ [] := append_ne_nil_left _ (by decide)
  have hsw1 : ¬ (goStartsWith tagsMarker (gs "Port" ++ ' ' :: v) = true) :=
    goStartsWith_ne_true rfl rfl (by decide)
  have hsw2 : ¬ (goStartsWith (gs "#") (gs "Port" ++ ' ' :: v) = true) :=
    goStartsWith_ne_true rfl rfl (by decide)
  simp only [parseLine, htrim, if_neg hne2, if_neg hsw1, if_neg hsw2, hfields]
  rw [if_neg (show ¬ (goToLower (gs "Port") = gs "host") from by decide),
      if_neg (show ¬ (goToLower (gs "Port") = gs "hostname") from by decide),
      if_neg (show ¬ (goToLower (gs "Port") = gs "user") from by decide),
      if_pos (show goToLower (gs "Port") = gs "port" from by decide)]
  rfl


/-- A `    IdentityFile <value>` line assigns the Identity field of the current host
when one is open, and is otherwise ignored. -/
theorem parseLine_dirToken_identityfile (st : ParseState) {v : GoString} (hv : isToken v) :
    parseLine st (dirLine (gs "IdentityFile") v) =
      { st with currentHost := st.currentHost.map fun h => { h with Identity := v } } := by
  have htrim : goTrimSpace (dirLine (gs "IdentityFile") v) = gs "IdentityFile" ++ ' ' :: v :=
    goTrimSpace_dirLine_token (by decide) hv
  have hfields : goFields (gs "IdentityFile" ++ ' ' :: v) = [gs "IdentityFile", v] :=
    htrim ▸ goFields_dirLine_token (by decide) hv
  have hne2 : gs "IdentityFile" ++ ' ' :: v ≠ [] := append_ne_nil_left _ (by decide)
  have hsw1 : ¬ (goStartsWith tagsMarker (gs "IdentityFile" ++ ' ' :: v) = true) :=
    goStartsWith_ne_true rfl rfl (by decide)
  have hsw2 : ¬ (goStartsWith (gs "#") (gs "IdentityFile" ++ ' ' :: v) = true) :=
    goStartsWith_ne_true rfl rfl (by decide)
  simp only [parseLine, htrim, if_neg hne2, if_neg hsw1, if_neg hsw2, hfields]
  rw [if_neg (show ¬ (goToLower (gs "IdentityFile") = gs "host") from by decide),
      if_neg (show ¬ (goToLower (gs "IdentityFile") = gs "hostname") from by decide),
      if_neg (show ¬ (goToLower (gs "IdentityFile") = gs "user") from by decide),
      if_neg (show ¬ (goToLower (gs "IdentityFile") = gs "port") from by decide),
      if_pos (show goToLower (gs "IdentityFile") = gs "identityfile" from by decide)]
  rfl


/-- A `    ProxyJump <value>` line assigns the ProxyJump field of the current host
when one is open, and is otherwise ignored. -/
theorem parseLine_dirToken_proxyjump (st : ParseState) {v : GoString} (hv : isToken v) :
    parseLine st (dirLine (gs "ProxyJump") v) =
      { st with currentHost := st.currentHost.map fun h => { h with ProxyJump := v } } := by
  have htrim : goTrimSpace (dirLine (gs "ProxyJump") v) = gs "ProxyJump" ++ ' ' :: v :=
    goTrimSpace_dirLine_token (by decide) hv
  have hfields : goFields (gs "ProxyJump" ++ ' ' :: v) = [gs "ProxyJump", v] :=
    htrim ▸ goFields_dirLine_token (by decide) hv
  have hne2 : gs "ProxyJump" ++ ' ' :: v ≠ [] := append_ne_nil_left _ (by decide)
  have hsw1 : ¬ (goStartsWith tagsMarker (gs "ProxyJump" ++ ' ' :: v) = true) :=
    goStartsWith_ne_true rfl rfl (by decide)
  have hsw2 : ¬ (goStartsWith (gs "#") (gs "ProxyJump" ++ ' ' :: v) = true) :=
    goStartsWith_ne_true rfl rfl (by decide)
  simp only [parseLine, htrim, if_neg hne2, if_neg hsw1, if_neg hsw2, hfields]
  rw [if_neg (show ¬ (goToLower (gs "ProxyJump") = gs "host") from by decide),
      if_neg (show ¬ (goToLower (gs "ProxyJump") = gs "hostname") from by decide),
      if_neg (show ¬ (goToLower (gs "ProxyJump") = gs "user") from by decide),
      if_neg (show ¬ (goToLower (gs "ProxyJump") = gs "port") from by decide),
      if_neg (show ¬ (goToLower (gs "ProxyJump") = gs "identityfile") from by decide),
      if_pos (show goToLower (gs "ProxyJump") = gs "proxyjump" from by decide)]
  rfl

/-! ### Parsing a serialized block -/

/-- An optional field value: absent or a single whitespace-free token. -/
def optTok (s : GoString) : Prop := s = [] ∨ isToken s

instance (s : GoString) : Decidable (optTok s) := by unfold optTok; infer_instance

/-- Well-formed entry as produced by the validation layer: whitespace-free
name, single-token optional fields, and comma-free single-token tags. -/
def wfEntry (h : SSHHost) : Prop :=
  isToken h.Name ∧ optTok h.Hostname ∧ optTok h.User ∧ optTok h.Port ∧
    optTok h.Identity ∧ optTok h.ProxyJump ∧ ∀ t ∈ h.Tags, isToken t ∧ ',' ∉ t

instance (h : SSHHost) : Decidable (wfEntry h) := by unfold wfEntry; infer_instance

/-- In-memory port of a parsed entry: `"22"` when the serializer omitted the
`Port` directive (empty or `"22"` in the source entry). -/
def portDefault (p : GoString) : GoString :=
  if p = [] ∨ p = gs "22" then gs "22" else p

/-- The entry obtained by parsing the block `AddSSHHost` writes. -/
def parsedAdd (h : SSHHost) : SSHHost :=
  { h with Port := portDefault h.Port }

/-- The entry obtained by parsing the block `UpdateSSHHost` writes: the port
is defaulted and the `ProxyJump` field is lost (never serialized by update). -/
def parsedUpd (h : SSHHost) : SSHHost :=
  { h with Port := portDefault h.Port, ProxyJump := [] }

theorem seg_tags (ts : List GoString) (H : List SSHHost) (cur : Option SSHHost)
    (h : ∀ t ∈ ts, isToken t ∧ ',' ∉ t) :
    List.foldl parseLine ⟨H, cur, []⟩ (if ts.length > 0 then [tagsLineOf ts] else []) =
      ⟨H, cur, ts⟩ := by
  split
  · next hlen =>
    have hne : ts ≠ [] := by intro h0; subst h0; simp at hlen
    simp only [List.foldl_cons, List.foldl_nil]
    rw [parseLine_tagsLine _ h hne]
    rfl
  · next hlen =>
    have hts : ts = [] := by
      cases ts with
      | nil => rfl
      | cons a b => exact absurd (by simp) hlen
    subst hts
    simp

theorem seg_hostname {hn : GoString} (hv : optTok hn)
    (H : List SSHHost) (x : SSHHost) (p : List GoString) (hx : x.Hostname = []) :
    parseLine ⟨H, some x, p⟩ (dirLine (gs "HostName") hn) =
      ⟨H, some { x with Hostname := hn }, p⟩ := by
  rcases hv with rfl | hv
  · rw [parseLine_dirLine_blank _ (by decide)
        (show (gs "HostName").head? = some 'H' from rfl) (by decide)]
    cases x
    simp at hx
    simp [hx]
  · rw [parseLine_dirToken_hostname _ hv]
    rfl

theorem seg_opt_user {u : GoString} (hv : optTok u)
    (H : List SSHHost) (x : SSHHost) (p : List GoString) (hx : x.User = []) :
    List.foldl parseLine ⟨H, some x, p⟩
        (if u ≠ [] then [dirLine (gs "User") u] else []) =
      ⟨H, some { x with User := u }, p⟩ := by
  split
  · next hne =>
    have hu : isToken u := hv.resolve_left hne
    simp only [List.foldl_cons, List.foldl_nil]
    rw [parseLine_dirToken_user _ hu]
    rfl
  · next hne =>
    have hu : u = [] := by by_contra hc; exact hne hc
    subst hu
    cases x
    simp at hx
    simp [hx]

theorem seg_opt_identity {u : GoString} (hv : optTok u)
    (H : List SSHHost) (x : SSHHost) (p : List GoString) (hx : x.Identity = []) :
    List.foldl parseLine ⟨H, some x, p⟩
        (if u ≠ [] then [dirLine (gs "IdentityFile") u] else []) =
      ⟨H, some { x with Identity := u }, p⟩ := by
  split
  · next hne =>
    have hu : isToken u := hv.resolve_left hne
    simp only [List.foldl_cons, List.foldl_nil]
    rw [parseLine_dirToken_identityfile _ hu]
    rfl
  · next hne =>
    have hu : u = [] := by by_contra hc; exact hne hc
    subst hu
    cases x
    simp at hx
    simp [hx]

theorem seg_opt_proxyjump {u : GoString} (hv : optTok u)
    (H : List SSHHost) (x : SSHHost) (p : List GoString) (hx : x.ProxyJump = []) :
    List.foldl parseLine ⟨H, some x, p⟩
        (if u ≠ [] then [dirLine (gs "ProxyJump") u] else []) =
      ⟨H, some { x with ProxyJump := u }, p⟩ := by
  split
  · next hne =>
    have hu : isToken u := hv.resolve_left hne
    simp only [List.foldl_cons, List.foldl_nil]
    rw [parseLine_dirToken_proxyjump _ hu]
    rfl
  · next hne =>
    have hu : u = [] := by by_contra hc; exact hne hc
    subst hu
    cases x
    simp at hx
    simp [hx]

theorem seg_opt_port {pt : GoString} (hv : optTok pt)
    (H : List SSHHost) (x : SSHHost) (p : List GoString) (hx : x.Port = gs "22") :
    List.foldl parseLine ⟨H, some x, p⟩
        (if pt ≠ [] ∧ pt ≠ gs "22" then [dirLine (gs "Port") pt] else []) =
      ⟨H, some { x with Port := portDefault pt }, p⟩ := by
  split
  · next hcond =>
    have hu : isToken pt := hv.resolve_left hcond.1
    simp only [List.foldl_cons, List.foldl_nil]
    rw [parseLine_dirToken_port _ hu]
    have : portDefault pt = pt := by
      rw [portDefault, if_neg (by push_neg; exact ⟨hcond.1, hcond.2⟩)]
    rw [this]
    rfl
  · next hcond =>
    have hdef : portDefault pt = gs "22" := by
      rw [portDefault, if_pos (by by_contra hc; push_neg at hc; exact hcond ⟨hc.1, hc.2⟩)]
    rw [hdef]
    cases x
    simp at hx
    simp [hx]

theorem parseLine_nil (st : ParseState) : parseLine st [] = st :=
  parseLine_blank st rfl

/-- Parsing the lines written by `AddSSHHost` from any parser state with an
empty pending-tags accumulator: the previous host is closed into the output
and the block's entry (with defaulted port) becomes the current host. -/
theorem foldl_addHostLines {h : SSHHost} (hw : wfEntry h)
    (H : List SSHHost) (cur : Option SSHHost) :
    List.foldl parseLine ⟨H, cur, []⟩ (addHostLines h) =
      ⟨H ++ cur.toList, some (parsedAdd h), []⟩ := by
  obtain ⟨hname, hhost, huser, hport, hid, hpj, htags⟩ := hw
  simp only [addHostLines, List.foldl_append, List.foldl_cons, List.foldl_nil]
  rw [parseLine_nil, seg_tags _ _ _ htags, parseLine_hostDecl _ hname]
  rw [seg_hostname hhost _ _ _ rfl]
  rw [seg_opt_user huser _ _ _ rfl]
  rw [seg_opt_port hport _ _ _ rfl]
  rw [seg_opt_identity hid _ _ _ rfl]
  rw [seg_opt_proxyjump hpj _ _ _ rfl]
  rfl

/-- Parsing the lines written by `UpdateSSHHost` for the replacement entry:
same as create except that no `ProxyJump` line exists, so the field stays
empty. -/
theorem foldl_updateBlockLines {h : SSHHost} (hw : wfEntry h)
    (H : List SSHHost) (cur : Option SSHHost) :
    List.foldl parseLine ⟨H, cur, []⟩ (updateBlockLines h) =
      ⟨H ++ cur.toList, some (parsedUpd h), []⟩ := by
  obtain ⟨hname, hhost, huser, hport, hid, hpj, htags⟩ := hw
  simp only [updateBlockLines, List.foldl_append, List.foldl_cons, List.foldl_nil]
  rw [parseLine_nil, seg_tags _ _ _ htags, parseLine_hostDecl _ hname]
  rw [seg_hostname hhost _ _ _ rfl]
  rw [seg_opt_user huser _ _ _ rfl]
  rw [seg_opt_port hport _ _ _ rfl]
  rw [seg_opt_identity hid _ _ _ rfl]
  rfl

/-! ### Line joining and splitting round trips -/

/-- A string that stays on one line: free of newline and carriage return. -/
def cleanStr (s : GoString) : Prop := ∀ c ∈ s, c ≠ '\n' ∧ c ≠ '\r'

instance (s : GoString) : Decidable (cleanStr s) := by unfold cleanStr; infer_instance

theorem cleanStr_append {a b : GoString} (ha : cleanStr a) (hb : cleanStr b) :
    cleanStr (a ++ b) := by
  intro c hc
  rcases List.mem_append.mp hc with h | h
  · exact ha c h
  · exact hb c h

theorem cleanStr_of_token {t : GoString} (ht : ∀ c ∈ t, goIsSpace c = false) : cleanStr t := by
  intro c hc
  have := ht c hc
  constructor
  · rintro rfl; simp [goIsSpace] at this
  · rintro rfl; simp [goIsSpace] at this

theorem cleanStr_join_tokens {ts : List GoString} (h : ∀ t ∈ ts, isToken t) :
    cleanStr (goJoin (gs ", ") ts) := by
  induction ts with
  | nil => intro c hc; simp [goJoin] at hc
  | cons t rest ih =>
    cases rest with
    | nil =>
      simpa [goJoin] using cleanStr_of_token (h t (by simp)).2
    | cons u us =>
      have h1 : cleanStr t := cleanStr_of_token (h t (by simp)).2
      have h2 := ih (fun x hx => h x (List.mem_cons_of_mem t hx))
      have hshape : goJoin (gs ", ") (t :: u :: us) =
          t ++ (gs ", " ++ goJoin (gs ", ") (u :: us)) := by
        simp [goJoin, List.append_assoc]
      rw [hshape]
      exact cleanStr_append h1 (cleanStr_append (by decide) h2)

theorem getLast?_mem : ∀ {l : GoString} {c : Char}, l.getLast? = some c → c ∈ l := by
  intro l
  induction l with
  | nil => intro c h; simp at h
  | cons a t ih =>
    intro c h
    cases t with
    | nil => simp at h; subst h; simp
    | cons b u =>
      rw [List.getLast?_cons_cons] at h
      exact List.mem_cons_of_mem a (ih h)

theorem dropCR_eq_self {l : GoString} (h : ∀ c ∈ l, c ≠ '\r') : dropCR l = l := by
  rw [dropCR]
  split
  · next hg => exact absurd rfl (h _ (getLast?_mem hg))
  · rfl

theorem dropCR_of_clean {l : GoString} (h : cleanStr l) : dropCR l = l :=
  dropCR_eq_self (fun c hc => (h c hc).2)

theorem scanLinesAux_cons (cur : GoString) (c : Char) (cs : GoString) :
    scanLinesAux cur (c :: cs) =
      if c = '\n' then
        dropCR cur.reverse :: (match cs with | [] => [] | _ :: _ => scanLinesAux [] cs)
      else scanLinesAux (c :: cur) cs := rfl

theorem scanLinesAux_no_nl {l : GoString} (h : ∀ c ∈ l, c ≠ '\n') :
    ∀ cur : GoString, scanLinesAux cur l = [dropCR (cur.reverse ++ l)] := by
  induction l with
  | nil => intro cur; simp [scanLinesAux]
  | cons c cs ih =>
    intro cur
    have hc : c ≠ '\n' := h c (by simp)
    rw [scanLinesAux_cons, if_neg hc, ih (fun d hd => h d (List.mem_cons_of_mem c hd))]
    simp

theorem scanLinesAux_break {l : GoString} (h : ∀ c ∈ l, c ≠ '\n') :
    ∀ (cur : GoString) (r : GoString),
      scanLinesAux cur (l ++ '\n' :: r) =
        dropCR (cur.reverse ++ l) ::
          (match r with | [] => [] | _ :: _ => scanLinesAux [] r) := by
  induction l with
  | nil =>
    intro cur r
    rw [List.nil_append, scanLinesAux_cons, if_pos rfl]
    simp
  | cons c cs ih =>
    intro cur r
    have hc : c ≠ '\n' := h c (by simp)
    rw [List.cons_append, scanLinesAux_cons, if_neg hc,
        ih (fun d hd => h d (List.mem_cons_of_mem c hd))]
    simp

theorem unlines_ne_nil (l : GoString) (ls : List GoString) : unlines (l :: ls) ≠ [] := by
  simp [unlines]

/-- Scanning back the text written by the `WriteString` sequence recovers
exactly the written lines. -/
theorem scanLines_unlines {ls : List GoString} (h : ∀ l ∈ ls, cleanStr l) :
    scanLines (unlines ls) = ls := by
  induction ls with
  | nil => rfl
  | cons l rest ih =>
    have hl := h l (by simp)
    have hnl : ∀ c ∈ l, c ≠ '\n' := fun c hc => (hl c hc).1
    have hne : unlines (l :: rest) ≠ [] := unlines_ne_nil l rest
    rw [scanLines.eq_def]
    split
    · next heq => exact absurd heq hne
    · next heq =>
      rw [show unlines (l :: rest) = l ++ '\n' :: unlines rest from rfl,
          scanLinesAux_break hnl [] (unlines rest)]
      simp only [List.reverse_nil, List.nil_append]
      rw [dropCR_of_clean hl]
      cases rest with
      | nil => rfl
      | cons m ms =>
        have hu : unlines (m :: ms) ≠ [] := unlines_ne_nil m ms
        rcases hshape : unlines (m :: ms) with _ | ⟨x, xs⟩
        · exact absurd hshape hu
        · have ihr := ih (fun x hx => h x (List.mem_cons_of_mem l hx))
          rw [scanLines.eq_def, hshape] at ihr
          rw [← hshape] at ihr ⊢
          simp only [ihr]

theorem goJoin_nl_cons_cons (l m : GoString) (ms : List GoString) :
    goJoin (gs "\n") (l :: m :: ms) = l ++ '\n' :: goJoin (gs "\n") (m :: ms) := by
  show l ++ gs "\n" ++ goJoin (gs "\n") (m :: ms) = _
  rw [List.append_assoc]
  rfl

theorem goJoin_nl_ne_nil {l m : GoString} (ms : List GoString) :
    goJoin (gs "\n") (l :: m :: ms) ≠ [] := by
  rw [goJoin_nl_cons_cons]
  simp

/-- Re-scanning a `strings.Join(lines, "\n")` contents (as written back by
update and delete) recovers the lines when the last one is non-blank. -/
theorem scanLines_joinNL {ls : List GoString} (h : ∀ l ∈ ls, cleanStr l)
    (hne : ls ≠ []) (hlast : ls.getLast? ≠ some []) :
    scanLines (goJoin (gs "\n") ls) = ls := by
  induction ls with
  | nil => exact absurd rfl hne
  | cons l rest ih =>
    have hl := h l (by simp)
    have hnl : ∀ c ∈ l, c ≠ '\n' := fun c hc => (hl c hc).1
    cases rest with
    | nil =>
      have hlne : l ≠ [] := by simpa using hlast
      show scanLines l = [l]
      cases l with
      | nil => exact absurd rfl hlne
      | cons c cs =>
        rw [show scanLines (c :: cs) = scanLinesAux [] (c :: cs) from rfl,
            scanLinesAux_no_nl hnl []]
        simp [dropCR_of_clean hl]
    | cons m ms =>
      rw [goJoin_nl_cons_cons, scanLines.eq_def]
      split
      · next heq =>
        exact absurd heq (by simp)
      · next heq =>
        rw [scanLinesAux_break hnl [] (goJoin (gs "\n") (m :: ms))]
        simp only [List.reverse_nil, List.nil_append]
        rw [dropCR_of_clean hl]
        have hj : goJoin (gs "\n") (m :: ms) ≠ [] := by
          cases ms with
          | nil =>
            have : m ≠ [] := by simpa using hlast
            simpa [goJoin] using this
          | cons u us => exact goJoin_nl_ne_nil us
        rcases hshape : goJoin (gs "\n") (m :: ms) with _ | ⟨x, xs⟩
        · exact absurd hshape hj
        · have ihr := ih (fun x hx => h x (List.mem_cons_of_mem l hx)) (by simp)
            (by simpa using hlast)
          rw [scanLines.eq_def, hshape] at ihr
          rw [← hshape] at ihr ⊢
          simp only [ihr]

/-- `strings.Split` on newline undoes `strings.Join` with newline. -/
theorem splitNL_joinNL {ls : List GoString} (h : ∀ l ∈ ls, cleanStr l) (hne : ls ≠ []) :
    splitNL (goJoin (gs "\n") ls) = ls := by
  induction ls with
  | nil => exact absurd rfl hne
  | cons l rest ih =>
    have hl : '\n' ∉ l := fun hm => (h l (by simp) '\n' hm).1 rfl
    cases rest with
    | nil => exact goSplitOn_no_sep hl
    | cons m ms =>
      rw [goJoin_nl_cons_cons, splitNL, goSplitOn_append _ hl]
      have := ih (fun x hx => h x (List.mem_cons_of_mem l hx)) (by simp)
      rw [splitNL] at this
      rw [this]

/-! ### Claim C1 infrastructure: lines of an appended block -/

/-- Field values that keep each serialized directive on a single line. -/
def entryClean (h : SSHHost) : Prop :=
  cleanStr h.Name ∧ cleanStr h.Hostname ∧ cleanStr h.User ∧ cleanStr h.Port ∧
    cleanStr h.Identity ∧ cleanStr h.ProxyJump ∧ ∀ t ∈ h.Tags, cleanStr t

instance (h : SSHHost) : Decidable (entryClean h) := by unfold entryClean; infer_instance

theorem cleanStr_goJoin {sep : GoString} {ts : List GoString}
    (hs : cleanStr sep) (h : ∀ t ∈ ts, cleanStr t) : cleanStr (goJoin sep ts) := by
  induction ts with
  | nil => intro c hc; simp [goJoin] at hc
  | cons t rest ih =>
    cases rest with
    | nil => simpa [goJoin] using h t (by simp)
    | cons u us =>
      have h1 : cleanStr t := h t (by simp)
      have h2 := ih (fun x hx => h x (List.mem_cons_of_mem t hx))
      have hshape : goJoin sep (t :: u :: us) = t ++ (sep ++ goJoin sep (u :: us)) := by
        simp [goJoin, List.append_assoc]
      rw [hshape]
      exact cleanStr_append h1 (cleanStr_append hs h2)

theorem mem_ite_singleton {P : Prop} [Decidable P] {x l : GoString}
    (h : l ∈ (if P then [x] else [])) : P ∧ l = x := by
  split at h
  · next hp => exact ⟨hp, by simpa using h⟩
  · simp at h

/-- Exhaustive description of the lines `AddSSHHost` writes. -/
theorem addHostLines_cases {h : SSHHost} {l : GoString} (hl : l ∈ addHostLines h) :
    l = [] ∨ (h.Tags.length > 0 ∧ l = tagsLineOf h.Tags) ∨ l = hostDeclLine h.Name ∨
      l = dirLine (gs "HostName") h.Hostname ∨
      (h.User ≠ [] ∧ l = dirLine (gs "User") h.User) ∨
      ((h.Port ≠ [] ∧ h.Port ≠ gs "22") ∧ l = dirLine (gs "Port") h.Port) ∨
      (h.Identity ≠ [] ∧ l = dirLine (gs "IdentityFile") h.Identity) ∨
      (h.ProxyJump ≠ [] ∧ l = dirLine (gs "ProxyJump") h.ProxyJump) := by
  simp only [addHostLines] at hl
  rcases List.mem_append.mp hl with hl | h7
  rotate_left
  · right; right; right; right; right; right; right; exact mem_ite_singleton h7
  rcases List.mem_append.mp hl with hl | h6
  rotate_left
  · right; right; right; right; right; right; left; exact mem_ite_singleton h6
  rcases List.mem_append.mp hl with hl | h5
  rotate_left
  · right; right; right; right; right; left; exact mem_ite_singleton h5
  rcases List.mem_append.mp hl with hl | h4
  rotate_left
  · right; right; right; right; left; exact mem_ite_singleton h4
  rcases List.mem_append.mp hl with hl | h23
  rotate_left
  · rcases List.mem_cons.mp h23 with rfl | h23
    · right; right; left; rfl
    · right; right; right; left; simpa using h23
  rcases List.mem_append.mp hl with h0 | h1
  · left; simpa using h0
  · right; left; exact mem_ite_singleton h1

/-- Exhaustive description of the replacement lines `UpdateSSHHost` writes. -/
theorem updateBlockLines_cases {h : SSHHost} {l : GoString} (hl : l ∈ updateBlockLines h) :
    l = [] ∨ (h.Tags.length > 0 ∧ l = tagsLineOf h.Tags) ∨ l = hostDeclLine h.Name ∨
      l = dirLine (gs "HostName") h.Hostname ∨
      (h.User ≠ [] ∧ l = dirLine (gs "User") h.User) ∨
      ((h.Port ≠ [] ∧ h.Port ≠ gs "22") ∧ l = dirLine (gs "Port") h.Port) ∨
      (h.Identity ≠ [] ∧ l = dirLine (gs "IdentityFile") h.Identity) := by
  simp only [updateBlockLines] at hl
  rcases List.mem_append.mp hl with hl | h6
  rotate_left
  · right; right; right; right; right; right; exact mem_ite_singleton h6
  rcases List.mem_append.mp hl with hl | h5
  rotate_left
  · right; right; right; right; right; left; exact mem_ite_singleton h5
  rcases List.mem_append.mp hl with hl | h4
  rotate_left
  · right; right; right; right; left; exact mem_ite_singleton h4
  rcases List.mem_append.mp hl with hl | h23
  rotate_left
  · rcases List.mem_cons.mp h23 with rfl | h23
    · right; right; left; rfl
    · right; right; right; left; simpa using h23
  rcases List.mem_append.mp hl with h0 | h1
  · left; simpa using h0
  · right; left; exact mem_ite_singleton h1

theorem cleanStr_dirLine {kw v : GoString} (hkw : cleanStr kw) (hv : cleanStr v) :
    cleanStr (dirLine kw v) := by
  show cleanStr (gs "    " ++ (kw ++ ' ' :: v))
  refine cleanStr_append (by decide) (cleanStr_append hkw ?_)
  intro c hc
  rcases List.mem_cons.mp hc with rfl | hc
  · exact ⟨by decide, by decide⟩
  · exact hv c hc

theorem cleanStr_tagsLineOf {ts : List GoString} (h : ∀ t ∈ ts, cleanStr t) :
    cleanStr (tagsLineOf ts) := by
  show cleanStr (gs "# Tags: " ++ goJoin (gs ", ") ts)
  exact cleanStr_append (by decide) (cleanStr_goJoin (by decide) h)

theorem addHostLines_clean {h : SSHHost} (hc : entryClean h) :
    ∀ l ∈ addHostLines h, cleanStr l := by
  obtain ⟨hcn, hch, hcu, hcp, hci, hcj, hct⟩ := hc
  intro l hl
  rcases addHostLines_cases hl with rfl | ⟨_, rfl⟩ | rfl | rfl | ⟨_, rfl⟩ | ⟨_, rfl⟩
    | ⟨_, rfl⟩ | ⟨_, rfl⟩
  · intro c hc; simp at hc
  · exact cleanStr_tagsLineOf hct
  · show cleanStr (gs "Host " ++ h.Name)
    exact cleanStr_append (by decide) hcn
  · exact cleanStr_dirLine (by decide) hch
  · exact cleanStr_dirLine (by decide) hcu
  · exact cleanStr_dirLine (by decide) hcp
  · exact cleanStr_dirLine (by decide) hci
  · exact cleanStr_dirLine (by decide) hcj

/-- Any line whose fields do not begin with a `host` or `port` keyword leaves
the parsed host sequence and the current host's port untouched. -/
theorem parseLine_keeps (st : ParseState) (raw : GoString)
    (hk : ∀ k v1 vs, goFields (goTrimSpace raw) = k :: v1 :: vs →
        goToLower k ≠ gs "host" ∧ goToLower k ≠ gs "port") :
    (parseLine st raw).hosts = st.hosts ∧
      (parseLine st raw).currentHost.map SSHHost.Port =
        st.currentHost.map SSHHost.Port := by
  by_cases h1 : goTrimSpace raw = []
  · rw [parseLine_blank st h1]; exact ⟨rfl, rfl⟩
  by_cases h2 : goStartsWith tagsMarker (goTrimSpace raw) = true
  · have : parseLine st raw =
        { st with pendingTags := parseTagsInto (goTrimSpace raw) st.pendingTags } := by
      simp only [parseLine, if_neg h1, h2, if_true]
    rw [this]
    exact ⟨rfl, rfl⟩
  by_cases h3 : goStartsWith (gs "#") (goTrimSpace raw) = true
  · have : parseLine st raw = st := by
      simp only [parseLine, if_neg h1, h2, Bool.false_eq_true, if_false, h3, if_true]
    rw [this]; exact ⟨rfl, rfl⟩
  rcases hf : goFields (goTrimSpace raw) with _ | ⟨k, _ | ⟨v1, vs⟩⟩
  · have : parseLine st raw = st := by
      simp only [parseLine, if_neg h1, h2, Bool.false_eq_true, if_false, h3, hf]
    rw [this]; exact ⟨rfl, rfl⟩
  · have : parseLine st raw = st := by
      simp only [parseLine, if_neg h1, h2, Bool.false_eq_true, if_false, h3, hf]
    rw [this]; exact ⟨rfl, rfl⟩
  · obtain ⟨hkh, hkp⟩ := hk k v1 vs hf
    simp only [parseLine, if_neg h1, h2, Bool.false_eq_true, if_false, h3, hf, if_neg hkh]
    split_ifs with e1 e2 e3 e4 <;>
      exact ⟨rfl, by cases st.currentHost <;> simp⟩

theorem foldl_parseLine_keeps (ls : List GoString) :
    ∀ st : ParseState,
      (∀ raw ∈ ls, ∀ k v1 vs, goFields (goTrimSpace raw) = k :: v1 :: vs →
        goToLower k ≠ gs "host" ∧ goToLower k ≠ gs "port") →
      (List.foldl parseLine st ls).hosts = st.hosts ∧
        (List.foldl parseLine st ls).currentHost.map SSHHost.Port =
          st.currentHost.map SSHHost.Port := by
  induction ls with
  | nil => intro st _; exact ⟨rfl, rfl⟩
  | cons raw rest ih =>
    intro st hall
    have h1 := parseLine_keeps st raw (hall raw (by simp))
    have h2 := ih (parseLine st raw) (fun r hr => hall r (List.mem_cons_of_mem raw hr))
    simp only [List.foldl_cons]
    exact ⟨h2.1.trans h1.1, h2.2.trans h1.2⟩

theorem goTrimSpace_tagsLineOf_shape (ts : List GoString) :
    ∃ x, goTrimSpace (tagsLineOf ts) = tagsMarker ++ x := by
  have h0 : tagsLineOf ts = tagsMarker ++ ' ' :: goJoin (gs ", ") ts := rfl
  rw [h0, goTrimSpace,
      show goTrimLeft (tagsMarker ++ ' ' :: goJoin (gs ", ") ts) =
        tagsMarker ++ ' ' :: goJoin (gs ", ") ts from rfl,
      goTrimRight_append]
  split
  · exact ⟨[], by decide⟩
  · exact ⟨_, rfl⟩

/-- Whatever the labels are, a serialized tags line only ever touches the
pending-tags accumulator. -/
theorem parseLine_tags_weak (st : ParseState) (ts : List GoString) :
    ∃ p', parseLine st (tagsLineOf ts) = { st with pendingTags := p' } := by
  obtain ⟨x, hx⟩ := goTrimSpace_tagsLineOf_shape ts
  have hne : goTrimSpace (tagsLineOf ts) ≠ [] := by
    rw [hx]; exact append_ne_nil_left _ (by decide)
  have hsw : goStartsWith tagsMarker (goTrimSpace (tagsLineOf ts)) = true := by
    rw [hx]; exact goStartsWith_append _ _
  refine ⟨parseTagsInto (goTrimSpace (tagsLineOf ts)) st.pendingTags, ?_⟩
  simp only [parseLine, if_neg hne, hsw, if_true]

theorem goFields_tagsLineOf_head (ts : List GoString) :
    ∃ t rest, goFields (goTrimSpace (tagsLineOf ts)) = ('#' :: t) :: rest := by
  obtain ⟨x, hx⟩ := goTrimSpace_tagsLineOf_shape ts
  have hx2 : goTrimSpace (tagsLineOf ts) = '#' :: (gs " Tags:" ++ x) := by rw [hx]; rfl
  rw [hx2, goFields_cons_of_not_space (by decide)]
  exact ⟨_, _, rfl⟩

theorem goToLower_hash_head (t : GoString) {w : String}
    (hw : (gs w).head? = some 'h' ∨ (gs w).head? = some 'p') :
    goToLower ('#' :: t) ≠ gs w := by
  intro heq
  have hh := congrArg List.head? heq
  simp only [goToLower, List.map_cons, List.head?_cons] at hh
  rcases hw with hw | hw <;> rw [hw] at hh <;> simp at hh

theorem keeps_cond_dirLine {kw : GoString} (v : GoString) (hkw : isToken kw)
    (h1 : goToLower kw ≠ gs "host") (h2 : goToLower kw ≠ gs "port") :
    ∀ k v1 vs, goFields (goTrimSpace (dirLine kw v)) = k :: v1 :: vs →
      goToLower k ≠ gs "host" ∧ goToLower k ≠ gs "port" := by
  intro k v1 vs hf
  have hh := goFields_dirLine_head v hkw
  rw [hf] at hh
  simp only [List.head?_cons, Option.some.injEq] at hh
  subst hh
  exact ⟨h1, h2⟩

theorem keeps_cond_tagsLine (ts : List GoString) :
    ∀ k v1 vs, goFields (goTrimSpace (tagsLineOf ts)) = k :: v1 :: vs →
      goToLower k ≠ gs "host" ∧ goToLower k ≠ gs "port" := by
  intro k v1 vs hf
  obtain ⟨t, rest, ht⟩ := goFields_tagsLineOf_head ts
  rw [ht] at hf
  have hk : k = '#' :: t := by
    have := congrArg List.head? hf
    simpa using this.symm
  subst hk
  exact ⟨goToLower_hash_head t (Or.inl rfl), goToLower_hash_head t (Or.inr rfl)⟩

/-- Whether the parser would read a line as a `Port` directive: its first
whitespace-separated field, lowered, is `port`. -/
def isPortDirLine (l : GoString) : Bool :=
  match goFields (goTrimSpace l) with
  | t :: _ => goToLower t == gs "port"
  | [] => false

theorem isPortDirLine_dirLine {kw : GoString} (v : GoString) (hkw : isToken kw) :
    isPortDirLine (dirLine kw v) = (goToLower kw == gs "port") := by
  have hh := goFields_dirLine_head v hkw
  rcases hf : goFields (goTrimSpace (dirLine kw v)) with _ | ⟨t, rest⟩
  · rw [hf] at hh; simp at hh
  · rw [hf] at hh
    simp only [List.head?_cons, Option.some.injEq] at hh
    subst hh
    rw [isPortDirLine, hf]

theorem isPortDirLine_tagsLineOf (ts : List GoString) :
    isPortDirLine (tagsLineOf ts) = false := by
  obtain ⟨t, rest, ht⟩ := goFields_tagsLineOf_head ts
  rw [isPortDirLine, ht]
  have := @goToLower_hash_head t "port" (Or.inr rfl)
  simpa using this

theorem isPortDirLine_hostDecl {n : GoString} (hn : isToken n) :
    isPortDirLine (hostDeclLine n) = false := by
  rw [isPortDirLine, goFields_hostDecl hn]
  exact (by decide : (goToLower (gs "Host") == gs "port") = false)

theorem addHostLines_no_port_line {h : SSHHost} (hname : isToken h.Name)
    (hnc : ¬(h.Port ≠ [] ∧ h.Port ≠ gs "22")) :
    ∀ l ∈ addHostLines h, isPortDirLine l = false := by
  intro l hl
  rcases addHostLines_cases hl with rfl | ⟨_, rfl⟩ | rfl | rfl | ⟨_, rfl⟩ | ⟨hcond, rfl⟩
    | ⟨_, rfl⟩ | ⟨_, rfl⟩
  · rfl
  · exact isPortDirLine_tagsLineOf _
  · exact isPortDirLine_hostDecl hname
  · rw [isPortDirLine_dirLine _ (by decide)]; decide
  · rw [isPortDirLine_dirLine _ (by decide)]; decide
  · exact absurd hcond hnc
  · rw [isPortDirLine_dirLine _ (by decide)]; decide
  · rw [isPortDirLine_dirLine _ (by decide)]; decide

/-- C1: the default port round-trips.  When the entry's port is empty or
`"22"`, the block `AddSSHHost` serializes contains no `Port` directive line,
yet parsing the serialized text yields a single entry whose port is `"22"`;
and a `Port` line is emitted exactly when the port is non-empty and differs
from `"22"`. -/
theorem C1_default_port_roundtrip (h : SSHHost)
    (hname : isToken h.Name) (hclean : entryClean h) :
    ((h.Port = [] ∨ h.Port = gs "22") →
        (∀ l ∈ addHostLines h, isPortDirLine l = false) ∧
        ∃ e, ParseSSHConfigFile (unlines (addHostLines h)) = [e] ∧ e.Port = gs "22")
    ∧ ((∃ l ∈ addHostLines h, isPortDirLine l = true) ↔
        (h.Port ≠ [] ∧ h.Port ≠ gs "22")) := by
  constructor
  · intro hp
    have hnc : ¬(h.Port ≠ [] ∧ h.Port ≠ gs "22") := by
      rcases hp with hp | hp <;> simp [hp]
    refine ⟨addHostLines_no_port_line hname hnc, ?_⟩
    have hscan : scanLines (unlines (addHostLines h)) = addHostLines h :=
      scanLines_unlines (addHostLines_clean hclean)
    rw [ParseSSHConfigFile, hscan, parseLinesList]
    have hsplit : addHostLines h =
        ([([] : GoString)] ++ (if h.Tags.length > 0 then [tagsLineOf h.Tags] else [])
          ++ [hostDeclLine h.Name]) ++
        ([dirLine (gs "HostName") h.Hostname]
          ++ (if h.User ≠ [] then [dirLine (gs "User") h.User] else [])
          ++ (if h.Port ≠ [] ∧ h.Port ≠ gs "22" then [dirLine (gs "Port") h.Port] else [])
          ++ (if h.Identity ≠ [] then [dirLine (gs "IdentityFile") h.Identity] else [])
          ++ (if h.ProxyJump ≠ [] then [dirLine (gs "ProxyJump") h.ProxyJump] else [])) := by
      simp [addHostLines, List.append_assoc]
    rw [hsplit, List.foldl_append]
    have hpre : ∃ tg, List.foldl parseLine ⟨[], none, []⟩
        ([([] : GoString)] ++ (if h.Tags.length > 0 then [tagsLineOf h.Tags] else [])
          ++ [hostDeclLine h.Name]) =
        ⟨[], some ⟨h.Name, [], [], gs "22", [], [], tg⟩, []⟩ := by
      simp only [List.foldl_append, List.foldl_cons, List.foldl_nil, parseLine_nil]
      by_cases ht : h.Tags.length > 0
      · rw [if_pos ht]
        simp only [List.foldl_cons, List.foldl_nil]
        obtain ⟨p', hp'⟩ := parseLine_tags_weak ⟨[], none, []⟩ h.Tags
        rw [hp', parseLine_hostDecl _ hname]
        exact ⟨p', rfl⟩
      · rw [if_neg ht]
        simp only [List.foldl_nil]
        rw [parseLine_hostDecl _ hname]
        exact ⟨[], rfl⟩
    obtain ⟨tg, htg⟩ := hpre
    rw [htg]
    have hcond : ∀ raw ∈ ([dirLine (gs "HostName") h.Hostname]
          ++ (if h.User ≠ [] then [dirLine (gs "User") h.User] else [])
          ++ (if h.Port ≠ [] ∧ h.Port ≠ gs "22" then [dirLine (gs "Port") h.Port] else [])
          ++ (if h.Identity ≠ [] then [dirLine (gs "IdentityFile") h.Identity] else [])
          ++ (if h.ProxyJump ≠ [] then [dirLine (gs "ProxyJump") h.ProxyJump] else [])),
        ∀ k v1 vs, goFields (goTrimSpace raw) = k :: v1 :: vs →
          goToLower k ≠ gs "host" ∧ goToLower k ≠ gs "port" := by
      intro raw hraw
      rw [if_neg hnc] at hraw
      rcases List.mem_append.mp hraw with hraw | h5
      rotate_left
      · obtain ⟨_, rfl⟩ := mem_ite_singleton h5
        exact keeps_cond_dirLine _ (by decide) (by decide) (by decide)
      rcases List.mem_append.mp hraw with hraw | h4
      rotate_left
      · obtain ⟨_, rfl⟩ := mem_ite_singleton h4
        exact keeps_cond_dirLine _ (by decide) (by decide) (by decide)
      rcases List.mem_append.mp hraw with hraw | h3
      rotate_left
      · simp at h3
      rcases List.mem_append.mp hraw with h1 | h2
      · rcases List.mem_singleton.mp h1 with rfl
        exact keeps_cond_dirLine _ (by decide) (by decide) (by decide)
      · obtain ⟨_, rfl⟩ := mem_ite_singleton h2
        exact keeps_cond_dirLine _ (by decide) (by decide) (by decide)
    obtain ⟨hhosts, hport⟩ := foldl_parseLine_keeps _ ⟨[], some ⟨h.Name, [], [], gs "22", [], [], tg⟩, []⟩ hcond
    rcases hcur : (List.foldl parseLine ⟨[], some ⟨h.Name, [], [], gs "22", [], [], tg⟩, []⟩
        ([dirLine (gs "HostName") h.Hostname]
          ++ (if h.User ≠ [] then [dirLine (gs "User") h.User] else [])
          ++ (if h.Port ≠ [] ∧ h.Port ≠ gs "22" then [dirLine (gs "Port") h.Port] else [])
          ++ (if h.Identity ≠ [] then [dirLine (gs "IdentityFile") h.Identity] else [])
          ++ (if h.ProxyJump ≠ [] then [dirLine (gs "ProxyJump") h.ProxyJump] else []))).currentHost
        with _ | e
    · rw [hcur] at hport
      simp at hport
    · rw [hcur] at hport
      simp only [Option.map_some] at hport
      refine ⟨e, ?_, ?_⟩
      · rw [hhosts]
        rfl
      · have := congrArg (Option.getD · []) hport
        simpa using this
  · constructor
    · rintro ⟨l, hl, htrue⟩
      by_contra hnc
      rw [addHostLines_no_port_line hname hnc l hl] at htrue
      cases htrue
    · intro hcond
      refine ⟨dirLine (gs "Port") h.Port, ?_, ?_⟩
      · simp only [addHostLines]
        rw [if_pos hcond]
        simp
      · rw [isPortDirLine_dirLine _ (by decide)]; decide

theorem C1_default_port_roundtrip_witness :
    ∃ e, ParseSSHConfigFile
        (unlines (addHostLines ⟨gs "b", gs "5.6.7.8", [], gs "22", [], [], []⟩)) = [e] ∧
      e.Port = gs "22" :=
  ((C1_default_port_roundtrip ⟨gs "b", gs "5.6.7.8", [], gs "22", [], [], []⟩
      (by decide) (by decide)).1 (Or.inr rfl)).2

/-! ### Claim C2: pending tags survive blank and comment lines -/

/-- A line the parser ignores without touching any state: blank, or a comment
that is not a `# Tags:` line. -/
def skippableLine (l : GoString) : Prop :=
  goTrimSpace l = [] ∨ (goStartsWith (gs "#") (goTrimSpace l) = true ∧
    goStartsWith tagsMarker (goTrimSpace l) = false)

instance (l : GoString) : Decidable (skippableLine l) := by unfold skippableLine; infer_instance

theorem parseLine_skippable (st : ParseState) {l : GoString} (h : skippableLine l) :
    parseLine st l = st := by
  rcases h with h | ⟨h3, h2⟩
  · exact parseLine_blank st h
  · refine parseLine_comment st ?_ h2 h3
    intro hc
    rw [hc] at h3
    exact absurd h3 (by decide)

theorem foldl_parseLine_skippable {mid : List GoString} (st : ParseState)
    (h : ∀ l ∈ mid, skippableLine l) : List.foldl parseLine st mid = st := by
  induction mid with
  | nil => rfl
  | cons l rest ih =>
    rw [List.foldl_cons, parseLine_skippable st (h l (by simp))]
    exact ih (fun r hr => h r (List.mem_cons_of_mem l hr))

/-- C2: a `# Tags: a, b` line followed by any run of blank lines and non-tag
comment lines and then `Host x` attaches exactly `[a, b]` to the entry for
`x`: the pending accumulator is snapshotted into the new host and cleared,
and all previously closed hosts are unchanged. -/
theorem C2_pending_tags_survive_blanks (st : ParseState) (a b x : GoString)
    (mid : List GoString)
    (hp : st.pendingTags = [])
    (ha : isToken a ∧ ',' ∉ a) (hb : isToken b ∧ ',' ∉ b) (hx : isToken x)
    (hmid : ∀ l ∈ mid, skippableLine l) :
    List.foldl parseLine st
        ((gs "# Tags: " ++ a ++ gs ", " ++ b) :: (mid ++ [gs "Host " ++ x])) =
      { hosts := st.hosts ++ st.currentHost.toList
        currentHost := some ⟨x, [], [], gs "22", [], [], [a, b]⟩
        pendingTags := [] } := by
  have hline : gs "# Tags: " ++ a ++ gs ", " ++ b = tagsLineOf [a, b] := by
    simp [tagsLineOf, goJoin, List.append_assoc]
  have htags : ∀ t ∈ [a, b], isToken t ∧ ',' ∉ t := by
    intro t ht
    rcases List.mem_cons.mp ht with rfl | ht
    · exact ha
    rcases List.mem_cons.mp ht with rfl | ht
    · exact hb
    · simp at ht
  rw [List.foldl_cons, hline, parseLine_tagsLine st htags (by simp)]
  rw [show ({ st with pendingTags := st.pendingTags ++ [a, b] } : ParseState) =
      ⟨st.hosts, st.currentHost, [a, b]⟩ from by rw [hp]; rfl]
  rw [List.foldl_append, foldl_parseLine_skippable _ hmid]
  simp only [List.foldl_cons, List.foldl_nil]
  rw [show gs "Host " ++ x = hostDeclLine x from rfl, parseLine_hostDecl _ hx]

theorem C2_pending_tags_survive_blanks_witness :
    List.foldl parseLine ⟨[], none, []⟩
        ((gs "# Tags: " ++ gs "a" ++ gs ", " ++ gs "b") :: ([[], gs "# note"] ++ [gs "Host " ++ gs "x"])) =
      { hosts := ([] : List SSHHost) ++ (none : Option SSHHost).toList
        currentHost := some ⟨gs "x", [], [], gs "22", [], [], [gs "a", gs "b"]⟩
        pendingTags := [] } :=
  C2_pending_tags_survive_blanks ⟨[], none, []⟩ (gs "a") (gs "b") (gs "x")
    [[], gs "# note"] rfl (by decide) (by decide) (by decide) (by decide)

/-! ### Claim C3: uniqueness on create, file untouched -/

/-- C3: adding an entry whose name is already present fails with the
already-exists error and the config file content is unchanged. -/
theorem C3_addHost_uniqueness (fs : FS) (h : SSHHost) (c : GoString)
    (hc : fs.config = some c)
    (hex : ∃ e ∈ ParseSSHConfigFile c, e.Name = h.Name) :
    (AddSSHHost fs h).2 = OpResult.alreadyExists ∧
      (AddSSHHost fs h).1.config = fs.config := by
  have hhe : HostExists c h.Name = true := by
    rcases hex with ⟨e, he, hname⟩
    rw [HostExists, List.any_eq_true]
    exact ⟨e, he, by simp [hname]⟩
  simp [AddSSHHost, hc, hhe]

theorem C3_addHost_uniqueness_witness :
    (AddSSHHost ⟨some (gs "Host a\n    HostName 1.2.3.4\n"), none⟩
        ⟨gs "a", gs "5.6.7.8", [], [], [], [], []⟩).2 = OpResult.alreadyExists ∧
    (AddSSHHost ⟨some (gs "Host a\n    HostName 1.2.3.4\n"), none⟩
        ⟨gs "a", gs "5.6.7.8", [], [], [], [], []⟩).1.config =
      (⟨some (gs "Host a\n    HostName 1.2.3.4\n"), none⟩ : FS).config :=
  C3_addHost_uniqueness _ _ (gs "Host a\n    HostName 1.2.3.4\n") rfl (by decide)

/-! ### Claim C10: a missing config file makes create fail without creating it -/

/-- C10: when the config file does not exist, the uniqueness pre-check's
parse fails to open it, `AddSSHHost` returns that I/O error before reaching
the `O_CREATE` append open, and no config file is created. -/
theorem C10_addHost_missing_file (bu : Option GoString) (h : SSHHost) :
    AddSSHHost ⟨none, bu⟩ h = (⟨none, bu⟩, OpResult.ioError) := rfl

/-! ### Locator scan machinery for update and delete -/

/-- No line of `A` is matched by the locator while scanning `A ++ rest`:
neither the bare-`Host` condition nor the tags-annotated condition (whose
lookahead may reach into `rest`) fires. -/
def cleanScan (name : GoString) : List GoString → List GoString → Prop
  | [], _ => True
  | l :: ls, rest =>
      hostLineMatches name l = false ∧
      tagsBranchCond name l (ls ++ rest) = false ∧
      cleanScan name ls rest

instance cleanScanDec (name : GoString) :
    ∀ (A rest : List GoString), Decidable (cleanScan name A rest)
  | [], _ => .isTrue trivial
  | l :: ls, rest =>
    have : Decidable (cleanScan name ls rest) := cleanScanDec name ls rest
    by unfold cleanScan; infer_instance

theorem updateGo_cons_copy {name l : GoString} {rest : List GoString} (nh : SSHHost)
    (h1 : tagsBranchCond name l rest = false)
    (h2 : hostLineMatches name l = false) :
    updateGo name nh (l :: rest) =
      ((l :: (updateGo name nh rest).1), (updateGo name nh rest).2) := by
  simp only [updateGo]
  rw [if_neg (by simp [h1]), if_neg (by simp [h2])]

theorem deleteGo_cons_copy {name l : GoString} {rest : List GoString}
    (h1 : tagsBranchCond name l rest = false)
    (h2 : hostLineMatches name l = false) :
    deleteGo name (l :: rest) =
      ((l :: (deleteGo name rest).1), (deleteGo name rest).2) := by
  simp only [deleteGo]
  rw [if_neg (by simp [h1]), if_neg (by simp [h2])]

theorem updateGo_append_clean {name : GoString} (nh : SSHHost) :
    ∀ {A rest : List GoString}, cleanScan name A rest →
      updateGo name nh (A ++ rest) =
        ((A ++ (updateGo name nh rest).1), (updateGo name nh rest).2) := by
  intro A
  induction A with
  | nil => intro rest _; simp
  | cons l ls ih =>
    intro rest h
    obtain ⟨h2, h1, h3⟩ := h
    rw [List.cons_append, updateGo_cons_copy nh h1 h2, ih h3, List.cons_append]

theorem deleteGo_append_clean {name : GoString} :
    ∀ {A rest : List GoString}, cleanScan name A rest →
      deleteGo name (A ++ rest) =
        ((A ++ (deleteGo name rest).1), (deleteGo name rest).2) := by
  intro A
  induction A with
  | nil => intro rest _; simp
  | cons l ls ih =>
    intro rest h
    obtain ⟨h2, h1, h3⟩ := h
    rw [List.cons_append, deleteGo_cons_copy h1 h2, ih h3, List.cons_append]

theorem updateGo_clean_notfound {name : GoString} (nh : SSHHost) {lines : List GoString}
    (h : cleanScan name lines []) : updateGo name nh lines = (lines, false) := by
  have := @updateGo_append_clean name nh lines [] h
  simpa [updateGo] using this

theorem deleteGo_clean_notfound {name : GoString} {lines : List GoString}
    (h : cleanScan name lines []) : deleteGo name lines = (lines, false) := by
  have := @deleteGo_append_clean name lines [] h
  simpa [deleteGo] using this

theorem dropWhile_all_append {p : GoString → Bool} :
    ∀ {body rest : List GoString}, (∀ l ∈ body, p l = true) →
      (∀ x, rest.head? = some x → p x = false) →
      List.dropWhile p (body ++ rest) = rest := by
  intro body
  induction body with
  | nil =>
    intro rest _ hrest
    cases rest with
    | nil => rfl
    | cons x xs => simp [List.dropWhile_cons, hrest x rfl]
  | cons b bs ih =>
    intro rest hbody hrest
    rw [List.cons_append, List.dropWhile_cons]
    rw [hbody b (by simp)]
    simp only [if_true]
    exact ih (fun l hl => hbody l (List.mem_cons_of_mem b hl)) hrest

theorem tagsBranchCond_false_of_hostMatch {name l : GoString} (R : List GoString)
    (hm : hostLineMatches name l = true) :
    tagsBranchCond name l R = false := by
  have h1 : goStartsWith (gs "Host ") (goTrimSpace l) = true := by
    rw [hostLineMatches, Bool.and_eq_true] at hm
    exact hm.1
  obtain ⟨r, hr⟩ := goStartsWith_iff.mp h1
  rw [tagsBranchCond, hr,
      goStartsWith_false_of_head (show tagsMarker.head? = some '#' from rfl)
        (show ((gs "Host ") ++ r).head? = some 'H' from rfl) (by decide)]
  rfl

theorem updateGo_match_bare {name : GoString} (nh : SSHHost) {hostl : GoString}
    {body rest : List GoString}
    (hm : hostLineMatches name hostl = true)
    (hbody : ∀ l ∈ body, isBlockBody l = true)
    (hrest : ∀ x, rest.head? = some x → isBlockBody x = false) :
    updateGo name nh (hostl :: (body ++ rest)) =
      (updateBlockLines nh ++ (updateGo name nh rest).1, true) := by
  have htb := tagsBranchCond_false_of_hostMatch (body ++ rest) hm
  simp only [updateGo]
  rw [if_neg (by simp [htb]), if_pos hm, dropWhile_all_append hbody hrest]

theorem updateGo_match_tags {name : GoString} (nh : SSHHost) {tl hostl : GoString}
    {body rest : List GoString}
    (htl : goStartsWith tagsMarker (goTrimSpace tl) = true)
    (hnext : tagsNextMatches name hostl = true)
    (hbody : ∀ l ∈ body, isBlockBody l = true)
    (hrest : ∀ x, rest.head? = some x → isBlockBody x = false) :
    updateGo name nh (tl :: hostl :: (body ++ rest)) =
      (updateBlockLines nh ++ (updateGo name nh rest).1, true) := by
  have hcond : tagsBranchCond name tl (hostl :: (body ++ rest)) = true := by
    rw [tagsBranchCond, htl]
    simpa using hnext
  simp only [updateGo]
  rw [if_pos hcond]
  simp only [List.tail_cons]
  rw [dropWhile_all_append hbody hrest]

theorem deleteGo_match_bare {name : GoString} {hostl : GoString}
    {body rest : List GoString}
    (hm : hostLineMatches name hostl = true)
    (hbody : ∀ l ∈ body, isBlockBody l = true)
    (hrest : ∀ x, rest.head? = some x → isBlockBody x = false) :
    deleteGo name (hostl :: (body ++ rest)) =
      ((deleteGo name (skipOneBlank rest)).1, true) := by
  have htb := tagsBranchCond_false_of_hostMatch (body ++ rest) hm
  simp only [deleteGo]
  rw [if_neg (by simp [htb]), if_pos hm, dropWhile_all_append hbody hrest]

theorem deleteGo_match_tags {name : GoString} {tl hostl : GoString}
    {body rest : List GoString}
    (htl : goStartsWith tagsMarker (goTrimSpace tl) = true)
    (hnext : tagsNextMatches name hostl = true)
    (hbody : ∀ l ∈ body, isBlockBody l = true)
    (hrest : ∀ x, rest.head? = some x → isBlockBody x = false) :
    deleteGo name (tl :: hostl :: (body ++ rest)) =
      ((deleteGo name (skipOneBlank rest)).1, true) := by
  have hcond : tagsBranchCond name tl (hostl :: (body ++ rest)) = true := by
    rw [tagsBranchCond, htl]
    simpa using hnext
  simp only [deleteGo]
  rw [if_pos hcond]
  simp only [List.tail_cons]
  rw [dropWhile_all_append hbody hrest]

/-! ### No line of a foreign block matches the locator -/

theorem hostLineMatches_nil (name : GoString) : hostLineMatches name [] = false := rfl

theorem hostLineMatches_tagsLineOf (name : GoString) (ts : List GoString) :
    hostLineMatches name (tagsLineOf ts) = false := by
  obtain ⟨x, hx⟩ := goTrimSpace_tagsLineOf_shape ts
  rw [hostLineMatches, hx,
      goStartsWith_false_of_head (show (gs "Host ").head? = some 'H' from rfl)
        (show (tagsMarker ++ x).head? = some '#' from rfl) (by decide)]
  rfl

theorem hostLineMatches_hostDecl {name m : GoString} (hm : isToken m) (hne : m ≠ name) :
    hostLineMatches name (hostDeclLine m) = false := by
  have hf : goFields (goTrimSpace (hostDeclLine m)) = [gs "Host", m] := goFields_hostDecl hm
  rw [hostLineMatches, hf]
  have h2 : ((([gs "Host", m] : List GoString))[1]? == some m) = true := by simp
  have h3 : ((([gs "Host", m] : List GoString))[1]? == some name) = false := by
    rw [beq_eq_false_iff_ne]
    simp only [List.getElem?_cons_succ, List.getElem?_cons_zero, ne_eq, Option.some.injEq]
    exact hne
  rw [h3, Bool.and_false]

theorem hostLineMatches_hostDecl_self {name : GoString} (hn : isToken name) :
    hostLineMatches name (hostDeclLine name) = true := by
  rw [hostLineMatches, goFields_hostDecl hn, goTrimSpace_hostDecl hn, goStartsWith_append]
  simp

theorem hostLineMatches_dirLine_head {name kw : GoString} (v : GoString) (hkw : isToken kw)
    {c : Char} (hh : kw.head? = some c) (hc : c ≠ 'H') :
    hostLineMatches name (dirLine kw v) = false := by
  rw [hostLineMatches, goTrimSpace_dirLine v hkw]
  split
  · rw [goStartsWith_false_of_head (show (gs "Host ").head? = some 'H' from rfl) hh
      (fun he => hc he.symm)]
    rfl
  · have hh2 : (kw ++ goTrimRight (' ' :: v)).head? = some c := by
      cases kw with
      | nil => simp at hh
      | cons a as => simpa using hh
    rw [goStartsWith_false_of_head (show (gs "Host ").head? = some 'H' from rfl) hh2
      (fun he => hc he.symm)]
    rfl

theorem hostLineMatches_hostNameDir (name v : GoString) :
    hostLineMatches name (dirLine (gs "HostName") v) = false := by
  rw [hostLineMatches, goTrimSpace_dirLine v (by decide)]
  split
  · rw [show goStartsWith (gs "Host ") (gs "HostName") = false from by decide]
    rfl
  · rw [goStartsWith_append_left _ (by decide), 
        show goStartsWith (gs "Host ") (gs "HostName") = false from by decide]
    rfl

theorem tagsNextMatches_nil (name : GoString) : tagsNextMatches name [] = false := by
  rw [tagsNextMatches, beq_eq_false_iff_ne]
  intro heq
  exact append_ne_nil_left _ (by decide) heq.symm

theorem tagsNextMatches_of_head {name z : GoString} {c : Char}
    (hz : (goTrimSpace z).head? = some c) (hc : c ≠ 'H') :
    tagsNextMatches name z = false := by
  rw [tagsNextMatches, beq_eq_false_iff_ne]
  intro heq
  rw [heq] at hz
  have : (gs "Host " ++ name).head? = some 'H' := rfl
  rw [this] at hz
  simp at hz
  exact hc hz.symm

theorem tagsNextMatches_tagsLineOf (name : GoString) (ts : List GoString) :
    tagsNextMatches name (tagsLineOf ts) = false := by
  obtain ⟨x, hx⟩ := goTrimSpace_tagsLineOf_shape ts
  exact tagsNextMatches_of_head (by rw [hx]; rfl) (by decide)

theorem tagsNextMatches_hostDecl {name m : GoString} (hm : isToken m) (hne : m ≠ name) :
    tagsNextMatches name (hostDeclLine m) = false := by
  rw [tagsNextMatches, goTrimSpace_hostDecl hm, beq_eq_false_iff_ne]
  intro heq
  exact hne (List.append_cancel_left heq)

theorem tagsNextMatches_dirLine_head {name kw : GoString} (v : GoString) (hkw : isToken kw)
    {c : Char} (hh : kw.head? = some c) (hc : c ≠ 'H') :
    tagsNextMatches name (dirLine kw v) = false := by
  refine tagsNextMatches_of_head ?_ hc
  rw [goTrimSpace_dirLine v hkw]
  split
  · exact hh
  · cases kw with
    | nil => simp at hh
    | cons a as => simpa using hh

theorem tagsNextMatches_hostNameDir (name v : GoString) :
    tagsNextMatches name (dirLine (gs "HostName") v) = false := by
  rw [tagsNextMatches, goTrimSpace_dirLine v (by decide), beq_eq_false_iff_ne]
  split
  · intro heq
    have h4 := congrArg (List.drop 4) heq
    rw [show (gs "HostName").drop 4 = gs "Name" from rfl,
        show (gs "Host " ++ name).drop 4 = ' ' :: name from rfl] at h4
    have h5 := congrArg List.head? h4
    exact absurd h5 (by decide : ¬ (some 'N' = some ' '))
  · intro heq
    have h4 := congrArg (List.drop 4) heq
    rw [show (gs "HostName" ++ goTrimRight (' ' :: v)).drop 4 =
          gs "Name" ++ goTrimRight (' ' :: v) from rfl,
        show (gs "Host " ++ name).drop 4 = ' ' :: name from rfl] at h4
    have h5 := congrArg List.head? h4
    exact absurd h5 (by decide : ¬ (some 'N' = some ' '))

theorem tagsNextMatches_self {name : GoString} (hn : isToken name) :
    tagsNextMatches name (hostDeclLine name) = true := by
  rw [tagsNextMatches, goTrimSpace_hostDecl hn]
  simp

theorem cleanScan_of_no_matches {name : GoString} :
    ∀ (A rest : List GoString),
      (∀ l ∈ A, hostLineMatches name l = false) →
      (∀ l ∈ A, tagsNextMatches name l = false) →
      (∀ z, rest.head? = some z → tagsNextMatches name z = false) →
      cleanScan name A rest := by
  intro A
  induction A with
  | nil => intro rest _ _ _; trivial
  | cons l ls ih =>
    intro rest h1 h2 h3
    refine ⟨h1 l (by simp), ?_, ih rest (fun r hr => h1 r (List.mem_cons_of_mem l hr))
      (fun r hr => h2 r (List.mem_cons_of_mem l hr)) h3⟩
    rw [tagsBranchCond]
    have hm : (match (ls ++ rest).head? with
        | some next => tagsNextMatches name next
        | none => false) = false := by
      cases ls with
      | nil =>
        simp only [List.nil_append]
        cases hr : rest.head? with
        | none => rfl
        | some z => simpa using h3 z hr
      | cons m ms => simpa using h2 m (by simp)
    rw [hm, Bool.and_false]

theorem isBlockBody_of {l : GoString} (h1 : goTrimSpace l ≠ [])
    (h2 : goStartsWith (gs "Host ") (goTrimSpace l) = false) : isBlockBody l = true := by
  rw [isBlockBody]
  simp [h1, h2]

theorem goTrimSpace_dirLine_ne_nil {kw : GoString} (v : GoString) (hkw : isToken kw) :
    goTrimSpace (dirLine kw v) ≠ [] := by
  rw [goTrimSpace_dirLine v hkw]
  split
  · exact hkw.1
  · exact append_ne_nil_left _ hkw.1

theorem isBlockBody_dirLine_head {kw : GoString} (v : GoString) (hkw : isToken kw)
    {c : Char} (hh : kw.head? = some c) (hc : c ≠ 'H') :
    isBlockBody (dirLine kw v) = true := by
  refine isBlockBody_of (goTrimSpace_dirLine_ne_nil v hkw) ?_
  rw [goTrimSpace_dirLine v hkw]
  split
  · exact goStartsWith_false_of_head (show (gs "Host ").head? = some 'H' from rfl) hh
      (fun he => hc he.symm)
  · have hh2 : (kw ++ goTrimRight (' ' :: v)).head? = some c := by
      cases kw with
      | nil => simp at hh
      | cons a as => simpa using hh
    exact goStartsWith_false_of_head (show (gs "Host ").head? = some 'H' from rfl) hh2
      (fun he => hc he.symm)

theorem isBlockBody_hostNameDir (v : GoString) :
    isBlockBody (dirLine (gs "HostName") v) = true := by
  refine isBlockBody_of (goTrimSpace_dirLine_ne_nil v (by decide)) ?_
  rw [goTrimSpace_dirLine v (by decide)]
  split
  · exact (by decide : goStartsWith (gs "Host ") (gs "HostName") = false)
  · rw [goStartsWith_append_left _ (by decide)]
    exact (by decide : goStartsWith (gs "Host ") (gs "HostName") = false)

theorem isBlockBody_nil_false : isBlockBody ([] : GoString) = false := rfl

/-- No line of the serialized block of a host with a different name is
matched by the locator. -/
theorem addHostLines_no_match {name : GoString} {x : SSHHost} (hw : wfEntry x)
    (hne : x.Name ≠ name) :
    (∀ l ∈ addHostLines x, hostLineMatches name l = false) ∧
      (∀ l ∈ addHostLines x, tagsNextMatches name l = false) := by
  have hxn := hw.1
  constructor
  · intro l hl
    rcases addHostLines_cases hl with rfl | ⟨_, rfl⟩ | rfl | rfl | ⟨_, rfl⟩ | ⟨_, rfl⟩
      | ⟨_, rfl⟩ | ⟨_, rfl⟩
    · exact hostLineMatches_nil name
    · exact hostLineMatches_tagsLineOf name _
    · exact hostLineMatches_hostDecl hxn hne
    · exact hostLineMatches_hostNameDir name _
    · exact hostLineMatches_dirLine_head _ (by decide) rfl (by decide)
    · exact hostLineMatches_dirLine_head _ (by decide) rfl (by decide)
    · exact hostLineMatches_dirLine_head _ (by decide) rfl (by decide)
    · exact hostLineMatches_dirLine_head _ (by decide) rfl (by decide)
  · intro l hl
    rcases addHostLines_cases hl with rfl | ⟨_, rfl⟩ | rfl | rfl | ⟨_, rfl⟩ | ⟨_, rfl⟩
      | ⟨_, rfl⟩ | ⟨_, rfl⟩
    · exact tagsNextMatches_nil name
    · exact tagsNextMatches_tagsLineOf name _
    · exact tagsNextMatches_hostDecl hxn hne
    · exact tagsNextMatches_hostNameDir name _
    · exact tagsNextMatches_dirLine_head _ (by decide) rfl (by decide)
    · exact tagsNextMatches_dirLine_head _ (by decide) rfl (by decide)
    · exact tagsNextMatches_dirLine_head _ (by decide) rfl (by decide)
    · exact tagsNextMatches_dirLine_head _ (by decide) rfl (by decide)

theorem cleanScan_addHostLines {name : GoString} {x : SSHHost} (hw : wfEntry x)
    (hne : x.Name ≠ name) {rest : List GoString}
    (hrest : ∀ z, rest.head? = some z → tagsNextMatches name z = false) :
    cleanScan name (addHostLines x) rest :=
  cleanScan_of_no_matches _ _ (addHostLines_no_match hw hne).1
    (addHostLines_no_match hw hne).2 hrest

theorem tagsBranchCond_blank {name l : GoString} (R : List GoString)
    (h : goTrimSpace l = []) : tagsBranchCond name l R = false := by
  rw [tagsBranchCond, h]
  rfl

/-- Every directive line of a serialized block is block-body for the inner
skip loop: non-blank and not a `Host ` line. -/
theorem addHostLines_body_isBlockBody (x : SSHHost) :
    ∀ l ∈ ([dirLine (gs "HostName") x.Hostname]
      ++ (if x.User ≠ [] then [dirLine (gs "User") x.User] else [])
      ++ (if x.Port ≠ [] ∧ x.Port ≠ gs "22" then [dirLine (gs "Port") x.Port] else [])
      ++ (if x.Identity ≠ [] then [dirLine (gs "IdentityFile") x.Identity] else [])
      ++ (if x.ProxyJump ≠ [] then [dirLine (gs "ProxyJump") x.ProxyJump] else [])),
      isBlockBody l = true := by
  intro l hl
  rcases List.mem_append.mp hl with hl | h5
  rotate_left
  · obtain ⟨_, rfl⟩ := mem_ite_singleton h5
    exact isBlockBody_dirLine_head _ (by decide) rfl (by decide)
  rcases List.mem_append.mp hl with hl | h4
  rotate_left
  · obtain ⟨_, rfl⟩ := mem_ite_singleton h4
    exact isBlockBody_dirLine_head _ (by decide) rfl (by decide)
  rcases List.mem_append.mp hl with hl | h3
  rotate_left
  · obtain ⟨_, rfl⟩ := mem_ite_singleton h3
    exact isBlockBody_dirLine_head _ (by decide) rfl (by decide)
  rcases List.mem_append.mp hl with h1 | h2
  · rcases List.mem_singleton.mp h1 with rfl
    exact isBlockBody_hostNameDir _
  · obtain ⟨_, rfl⟩ := mem_ite_singleton h2
    exact isBlockBody_dirLine_head _ (by decide) rfl (by decide)

/-- Scanning the serialized block of the target host replaces it by the
replacement block, keeping the leading blank separator line. -/
theorem updateGo_block_match (b nh : SSHHost) (hwb : wfEntry b) (rest : List GoString)
    (hrest : ∀ z, rest.head? = some z → isBlockBody z = false) :
    updateGo b.Name nh (addHostLines b ++ rest) =
      ([] :: (updateBlockLines nh ++ (updateGo b.Name nh rest).1), true) := by
  have hn := hwb.1
  have hbody := addHostLines_body_isBlockBody b
  by_cases ht : b.Tags.length > 0
  · have hshape : addHostLines b ++ rest =
        [] :: tagsLineOf b.Tags :: hostDeclLine b.Name ::
          (([dirLine (gs "HostName") b.Hostname]
          ++ (if b.User ≠ [] then [dirLine (gs "User") b.User] else [])
          ++ (if b.Port ≠ [] ∧ b.Port ≠ gs "22" then [dirLine (gs "Port") b.Port] else [])
          ++ (if b.Identity ≠ [] then [dirLine (gs "IdentityFile") b.Identity] else [])
          ++ (if b.ProxyJump ≠ [] then [dirLine (gs "ProxyJump") b.ProxyJump] else [])) ++ rest) := by
      simp [addHostLines, ht, List.append_assoc]
    have htl : goStartsWith tagsMarker (goTrimSpace (tagsLineOf b.Tags)) = true := by
      obtain ⟨y, hy⟩ := goTrimSpace_tagsLineOf_shape b.Tags
      rw [hy]
      exact goStartsWith_append _ _
    rw [hshape,
        updateGo_cons_copy nh
          (tagsBranchCond_blank _ (show goTrimSpace ([] : GoString) = [] from rfl))
          (hostLineMatches_nil _),
        updateGo_match_tags nh htl (tagsNextMatches_self hn) hbody hrest]
  · have hshape : addHostLines b ++ rest =
        [] :: hostDeclLine b.Name ::
          (([dirLine (gs "HostName") b.Hostname]
          ++ (if b.User ≠ [] then [dirLine (gs "User") b.User] else [])
          ++ (if b.Port ≠ [] ∧ b.Port ≠ gs "22" then [dirLine (gs "Port") b.Port] else [])
          ++ (if b.Identity ≠ [] then [dirLine (gs "IdentityFile") b.Identity] else [])
          ++ (if b.ProxyJump ≠ [] then [dirLine (gs "ProxyJump") b.ProxyJump] else [])) ++ rest) := by
      simp [addHostLines, ht, List.append_assoc]
    rw [hshape,
        updateGo_cons_copy nh
          (tagsBranchCond_blank _ (show goTrimSpace ([] : GoString) = [] from rfl))
          (hostLineMatches_nil _),
        updateGo_match_bare nh (hostLineMatches_hostDecl_self hn) hbody hrest]

/-- Scanning the serialized block of the target host removes it together
with the single blank line that follows it, keeping the leading separator. -/
theorem deleteGo_block_match (b : SSHHost) (hwb : wfEntry b) (rest : List GoString)
    (hrest : ∀ z, rest.head? = some z → isBlockBody z = false) :
    deleteGo b.Name (addHostLines b ++ rest) =
      ([] :: (deleteGo b.Name (skipOneBlank rest)).1, true) := by
  have hn := hwb.1
  have hbody := addHostLines_body_isBlockBody b
  by_cases ht : b.Tags.length > 0
  · have hshape : addHostLines b ++ rest =
        [] :: tagsLineOf b.Tags :: hostDeclLine b.Name ::
          (([dirLine (gs "HostName") b.Hostname]
          ++ (if b.User ≠ [] then [dirLine (gs "User") b.User] else [])
          ++ (if b.Port ≠ [] ∧ b.Port ≠ gs "22" then [dirLine (gs "Port") b.Port] else [])
          ++ (if b.Identity ≠ [] then [dirLine (gs "IdentityFile") b.Identity] else [])
          ++ (if b.ProxyJump ≠ [] then [dirLine (gs "ProxyJump") b.ProxyJump] else [])) ++ rest) := by
      simp [addHostLines, ht, List.append_assoc]
    have htl : goStartsWith tagsMarker (goTrimSpace (tagsLineOf b.Tags)) = true := by
      obtain ⟨y, hy⟩ := goTrimSpace_tagsLineOf_shape b.Tags
      rw [hy]
      exact goStartsWith_append _ _
    rw [hshape,
        deleteGo_cons_copy
          (tagsBranchCond_blank _ (show goTrimSpace ([] : GoString) = [] from rfl))
          (hostLineMatches_nil _),
        deleteGo_match_tags htl (tagsNextMatches_self hn) hbody hrest]
  · have hshape : addHostLines b ++ rest =
        [] :: hostDeclLine b.Name ::
          (([dirLine (gs "HostName") b.Hostname]
          ++ (if b.User ≠ [] then [dirLine (gs "User") b.User] else [])
          ++ (if b.Port ≠ [] ∧ b.Port ≠ gs "22" then [dirLine (gs "Port") b.Port] else [])
          ++ (if b.Identity ≠ [] then [dirLine (gs "IdentityFile") b.Identity] else [])
          ++ (if b.ProxyJump ≠ [] then [dirLine (gs "ProxyJump") b.ProxyJump] else [])) ++ rest) := by
      simp [addHostLines, ht, List.append_assoc]
    rw [hshape,
        deleteGo_cons_copy
          (tagsBranchCond_blank _ (show goTrimSpace ([] : GoString) = [] from rfl))
          (hostLineMatches_nil _),
        deleteGo_match_bare (hostLineMatches_hostDecl_self hn) hbody hrest]

/-! ### Three-block configurations -/

theorem listAppend_ne_nil_left {α : Type} {l : List α} (r : List α) (h : l ≠ []) :
    l ++ r ≠ [] := by
  cases l with
  | nil => exact absurd rfl h
  | cons x xs => simp

theorem updateGo_nil (name : GoString) (nh : SSHHost) : updateGo name nh [] = ([], false) := by
  simp [updateGo]

theorem deleteGo_nil (name : GoString) : deleteGo name [] = ([], false) := by
  simp [deleteGo]

theorem entryClean_of_wf {h : SSHHost} (hw : wfEntry h) : entryClean h := by
  obtain ⟨h1, h2, h3, h4, h5, h6, h7⟩ := hw
  have opt : ∀ s : GoString, optTok s → cleanStr s := by
    rintro s (rfl | hs)
    · intro c hc; simp at hc
    · exact cleanStr_of_token hs.2
  exact ⟨cleanStr_of_token h1.2, opt _ h2, opt _ h3, opt _ h4, opt _ h5, opt _ h6,
    fun t ht => cleanStr_of_token (h7 t ht).1.2⟩

theorem updateBlockLines_clean {h : SSHHost} (hc : entryClean h) :
    ∀ l ∈ updateBlockLines h, cleanStr l := by
  obtain ⟨hcn, hch, hcu, hcp, hci, hcj, hct⟩ := hc
  intro l hl
  rcases updateBlockLines_cases hl with rfl | ⟨_, rfl⟩ | rfl | rfl | ⟨_, rfl⟩ | ⟨_, rfl⟩
    | ⟨_, rfl⟩
  · intro c hc; simp at hc
  · exact cleanStr_tagsLineOf hct
  · show cleanStr (gs "Host " ++ h.Name)
    exact cleanStr_append (by decide) hcn
  · exact cleanStr_dirLine (by decide) hch
  · exact cleanStr_dirLine (by decide) hcu
  · exact cleanStr_dirLine (by decide) hcp
  · exact cleanStr_dirLine (by decide) hci

theorem addHostLines_ne_nil (x : SSHHost) : addHostLines x ≠ [] := by
  rw [show addHostLines x = [] :: (addHostLines x).tail from rfl]
  simp

theorem addHostLines_getLast_ne_blank (x : SSHHost) :
    ∀ z, (addHostLines x).getLast? = some z → z ≠ [] := by
  intro z hz
  rw [addHostLines] at hz
  split_ifs at hz <;> simp at hz <;> rw [← hz] <;>
    exact append_ne_nil_left _ (by decide)

theorem updateGo_three_blocks (a b c nh : SSHHost)
    (hwa : wfEntry a) (hwb : wfEntry b) (hwc : wfEntry c)
    (hab : a.Name ≠ b.Name) (hcb : c.Name ≠ b.Name) :
    updateGo b.Name nh (addHostLines a ++ (addHostLines b ++ addHostLines c)) =
      (addHostLines a ++ ([] :: (updateBlockLines nh ++ addHostLines c)), true) := by
  have hr1 : ∀ z, (addHostLines b ++ addHostLines c).head? = some z →
      tagsNextMatches b.Name z = false := by
    intro z hz
    rw [show (addHostLines b ++ addHostLines c).head? = some ([] : GoString) from rfl] at hz
    obtain rfl : z = [] := (Option.some.inj hz).symm
    exact tagsNextMatches_nil _
  have hr2 : ∀ z, (addHostLines c).head? = some z → isBlockBody z = false := by
    intro z hz
    rw [show (addHostLines c).head? = some ([] : GoString) from rfl] at hz
    obtain rfl : z = [] := (Option.some.inj hz).symm
    rfl
  have hr3 : ∀ z, ([] : List GoString).head? = some z → tagsNextMatches b.Name z = false := by
    intro z hz; simp at hz
  rw [updateGo_append_clean nh (cleanScan_addHostLines hwa hab hr1),
      updateGo_block_match b nh hwb (addHostLines c) hr2,
      updateGo_clean_notfound nh (cleanScan_addHostLines hwc hcb hr3)]

theorem deleteGo_three_blocks (a b c : SSHHost)
    (hwa : wfEntry a) (hwb : wfEntry b) (hwc : wfEntry c)
    (hab : a.Name ≠ b.Name) (hcb : c.Name ≠ b.Name) :
    deleteGo b.Name (addHostLines a ++ (addHostLines b ++ addHostLines c)) =
      (addHostLines a ++ addHostLines c, true) := by
  have hr1 : ∀ z, (addHostLines b ++ addHostLines c).head? = some z →
      tagsNextMatches b.Name z = false := by
    intro z hz
    rw [show (addHostLines b ++ addHostLines c).head? = some ([] : GoString) from rfl] at hz
    obtain rfl : z = [] := (Option.some.inj hz).symm
    exact tagsNextMatches_nil _
  have hr2 : ∀ z, (addHostLines c).head? = some z → isBlockBody z = false := by
    intro z hz
    rw [show (addHostLines c).head? = some ([] : GoString) from rfl] at hz
    obtain rfl : z = [] := (Option.some.inj hz).symm
    rfl
  have hr3 : ∀ z, ([] : List GoString).head? = some z → tagsNextMatches b.Name z = false := by
    intro z hz; simp at hz
  have hmm := addHostLines_no_match hwc hcb
  have htail : cleanScan b.Name (addHostLines c).tail [] :=
    cleanScan_of_no_matches _ _
      (fun l hl => hmm.1 l (List.tail_subset _ hl))
      (fun l hl => hmm.2 l (List.tail_subset _ hl)) hr3
  rw [deleteGo_append_clean (cleanScan_addHostLines hwa hab hr1),
      deleteGo_block_match b hwb (addHostLines c) hr2,
      show skipOneBlank (addHostLines c) = (addHostLines c).tail from rfl,
      deleteGo_clean_notfound htail,
      show ([] : GoString) :: (addHostLines c).tail = addHostLines c from rfl]

theorem parsedAdd_eq_self {h : SSHHost} (hp : portDefault h.Port = h.Port) :
    parsedAdd h = h := by
  rw [parsedAdd, hp]

theorem parseLinesList_three_blocks (a b c : SSHHost)
    (hwa : wfEntry a) (hwb : wfEntry b) (hwc : wfEntry c) :
    parseLinesList (addHostLines a ++ (addHostLines b ++ addHostLines c)) =
      [parsedAdd a, parsedAdd b, parsedAdd c] := by
  rw [parseLinesList, List.foldl_append, List.foldl_append,
      foldl_addHostLines hwa, foldl_addHostLines hwb, foldl_addHostLines hwc]
  rfl

theorem parseLinesList_two_blocks (a c : SSHHost)
    (hwa : wfEntry a) (hwc : wfEntry c) :
    parseLinesList (addHostLines a ++ addHostLines c) = [parsedAdd a, parsedAdd c] := by
  rw [parseLinesList, List.foldl_append, foldl_addHostLines hwa, foldl_addHostLines hwc]
  rfl

theorem parseLinesList_upd_result (a nh c : SSHHost)
    (hwa : wfEntry a) (hwn : wfEntry nh) (hwc : wfEntry c) :
    parseLinesList (addHostLines a ++ ([] :: (updateBlockLines nh ++ addHostLines c))) =
      [parsedAdd a, parsedUpd nh, parsedAdd c] := by
  rw [parseLinesList, List.foldl_append, foldl_addHostLines hwa, List.foldl_cons,
      parseLine_nil, List.foldl_append, foldl_updateBlockLines hwn, foldl_addHostLines hwc]
  rfl

theorem goJoin_nl_blocks_clean_split {ls : List GoString}
    (hclean : ∀ l ∈ ls, cleanStr l) (hne : ls ≠ []) :
    splitNL (goJoin (gs "\n") ls) = ls :=
  splitNL_joinNL hclean hne

/-- Full behaviour of `UpdateSSHHost` on a three-block configuration file:
the bytes of the first and third blocks are copied verbatim into the result
(with the usual blank separator before the replacement block), the old
content is backed up, and the rewritten file parses to the first host, the
normalized replacement (defaulted port, no `ProxyJump`), and the third host. -/
theorem updateThreeBlocksFS (a b c nh : SSHHost) (bu : Option GoString)
    (hwa : wfEntry a) (hwb : wfEntry b) (hwc : wfEntry c) (hwn : wfEntry nh)
    (hab : a.Name ≠ b.Name) (hcb : c.Name ≠ b.Name) :
    UpdateSSHHost
        ⟨some (goJoin (gs "\n") (addHostLines a ++ (addHostLines b ++ addHostLines c))), bu⟩
        b.Name nh =
      (⟨some (goJoin (gs "\n")
          (addHostLines a ++ ([] :: (updateBlockLines nh ++ addHostLines c)))),
        some (goJoin (gs "\n") (addHostLines a ++ (addHostLines b ++ addHostLines c)))⟩,
        OpResult.ok) ∧
    ParseSSHConfigFile (goJoin (gs "\n")
        (addHostLines a ++ ([] :: (updateBlockLines nh ++ addHostLines c)))) =
      [parsedAdd a, parsedUpd nh, parsedAdd c] ∧
    ParseSSHConfigFile (goJoin (gs "\n")
        (addHostLines a ++ (addHostLines b ++ addHostLines c))) =
      [parsedAdd a, parsedAdd b, parsedAdd c] := by
  have hca := addHostLines_clean (entryClean_of_wf hwa)
  have hcb2 := addHostLines_clean (entryClean_of_wf hwb)
  have hcc := addHostLines_clean (entryClean_of_wf hwc)
  have hcu := updateBlockLines_clean (entryClean_of_wf hwn)
  have hcleanFile : ∀ l ∈ (addHostLines a ++ (addHostLines b ++ addHostLines c)), cleanStr l := by
    intro l hl
    rcases List.mem_append.mp hl with hl | hl
    · exact hca l hl
    rcases List.mem_append.mp hl with hl | hl
    · exact hcb2 l hl
    · exact hcc l hl
  have hcleanOut : ∀ l ∈ (addHostLines a ++ ([] :: (updateBlockLines nh ++ addHostLines c))),
      cleanStr l := by
    intro l hl
    rcases List.mem_append.mp hl with hl | hl
    · exact hca l hl
    rcases List.mem_cons.mp hl with rfl | hl
    · intro ch hch; simp at hch
    rcases List.mem_append.mp hl with hl | hl
    · exact hcu l hl
    · exact hcc l hl
  have hfilene : (addHostLines a ++ (addHostLines b ++ addHostLines c)) ≠ [] :=
    listAppend_ne_nil_left _ (addHostLines_ne_nil a)
  have houtne : (addHostLines a ++ ([] :: (updateBlockLines nh ++ addHostLines c))) ≠ [] :=
    listAppend_ne_nil_left _ (addHostLines_ne_nil a)
  have hsplit := splitNL_joinNL hcleanFile hfilene
  have hup := updateGo_three_blocks a b c nh hwa hwb hwc hab hcb
  have hlastFile : ∀ z, (addHostLines a ++ (addHostLines b ++ addHostLines c)).getLast? =
      some z → z ≠ [] := by
    intro z hz
    rw [List.getLast?_append_of_ne_nil _
          (listAppend_ne_nil_left _ (addHostLines_ne_nil b)),
        List.getLast?_append_of_ne_nil _ (addHostLines_ne_nil c)] at hz
    exact addHostLines_getLast_ne_blank c z hz
  have hlastOut : ∀ z, (addHostLines a ++ ([] :: (updateBlockLines nh ++ addHostLines c))).getLast? =
      some z → z ≠ [] := by
    intro z hz
    rw [List.getLast?_append_of_ne_nil _ (by simp),
        show (([] : GoString) :: (updateBlockLines nh ++ addHostLines c)) =
          [([] : GoString)] ++ (updateBlockLines nh ++ addHostLines c) from rfl,
        List.getLast?_append_of_ne_nil _
          (listAppend_ne_nil_left _ ?une),
        List.getLast?_append_of_ne_nil _ (addHostLines_ne_nil c)] at hz
    · exact addHostLines_getLast_ne_blank c z hz
    case une =>
      rw [show updateBlockLines nh = [] :: (updateBlockLines nh).tail from rfl]
      simp
  have hlastOutNe : (addHostLines a ++ ([] :: (updateBlockLines nh ++ addHostLines c))).getLast?
      ≠ some [] := by
    intro hcontra
    exact hlastOut [] hcontra rfl
  have hlastFileNe : (addHostLines a ++ (addHostLines b ++ addHostLines c)).getLast?
      ≠ some [] := by
    intro hcontra
    exact hlastFile [] hcontra rfl
  have hscanOut := scanLines_joinNL hcleanOut houtne hlastOutNe
  have hscanFile := scanLines_joinNL hcleanFile hfilene hlastFileNe
  refine ⟨?_, ?_, ?_⟩
  · simp only [UpdateSSHHost, hsplit, hup]
    rfl
  · rw [ParseSSHConfigFile, hscanOut]
    exact parseLinesList_upd_result a nh c hwa hwn hwc
  · rw [ParseSSHConfigFile, hscanFile]
    exact parseLinesList_three_blocks a b c hwa hwb hwc

/-- Full behaviour of `DeleteSSHHost` on a three-block configuration file:
the middle block and the blank separator after it are removed, all other
lines are copied verbatim, the old content is backed up, and the rewritten
file parses to the two remaining hosts with all fields intact. -/
theorem deleteThreeBlocksFS (a b c : SSHHost) (bu : Option GoString)
    (hwa : wfEntry a) (hwb : wfEntry b) (hwc : wfEntry c)
    (hab : a.Name ≠ b.Name) (hcb : c.Name ≠ b.Name) :
    DeleteSSHHost
        ⟨some (goJoin (gs "\n") (addHostLines a ++ (addHostLines b ++ addHostLines c))), bu⟩
        b.Name =
      (⟨some (goJoin (gs "\n") (addHostLines a ++ addHostLines c)),
        some (goJoin (gs "\n") (addHostLines a ++ (addHostLines b ++ addHostLines c)))⟩,
        OpResult.ok) ∧
    ParseSSHConfigFile (goJoin (gs "\n") (addHostLines a ++ addHostLines c)) =
      [parsedAdd a, parsedAdd c] ∧
    ParseSSHConfigFile (goJoin (gs "\n")
        (addHostLines a ++ (addHostLines b ++ addHostLines c))) =
      [parsedAdd a, parsedAdd b, parsedAdd c] := by
  have hca := addHostLines_clean (entryClean_of_wf hwa)
  have hcb2 := addHostLines_clean (entryClean_of_wf hwb)
  have hcc := addHostLines_clean (entryClean_of_wf hwc)
  have hcleanFile : ∀ l ∈ (addHostLines a ++ (addHostLines b ++ addHostLines c)), cleanStr l := by
    intro l hl
    rcases List.mem_append.mp hl with hl | hl
    · exact hca l hl
    rcases List.mem_append.mp hl with hl | hl
    · exact hcb2 l hl
    · exact hcc l hl
  have hcleanOut : ∀ l ∈ (addHostLines a ++ addHostLines c), cleanStr l := by
    intro l hl
    rcases List.mem_append.mp hl with hl | hl
    · exact hca l hl
    · exact hcc l hl
  have hfilene : (addHostLines a ++ (addHostLines b ++ addHostLines c)) ≠ [] :=
    listAppend_ne_nil_left _ (addHostLines_ne_nil a)
  have houtne : (addHostLines a ++ addHostLines c) ≠ [] :=
    listAppend_ne_nil_left _ (addHostLines_ne_nil a)
  have hsplit := splitNL_joinNL hcleanFile hfilene
  have hdel := deleteGo_three_blocks a b c hwa hwb hwc hab hcb
  have hlastFileNe : (addHostLines a ++ (addHostLines b ++ addHostLines c)).getLast?
      ≠ some [] := by
    intro hz
    rw [List.getLast?_append_of_ne_nil _
          (listAppend_ne_nil_left _ (addHostLines_ne_nil b)),
        List.getLast?_append_of_ne_nil _ (addHostLines_ne_nil c)] at hz
    exact addHostLines_getLast_ne_blank c [] hz rfl
  have hlastOutNe : (addHostLines a ++ addHostLines c).getLast? ≠ some [] := by
    intro hz
    rw [List.getLast?_append_of_ne_nil _ (addHostLines_ne_nil c)] at hz
    exact addHostLines_getLast_ne_blank c [] hz rfl
  have hscanOut := scanLines_joinNL hcleanOut houtne hlastOutNe
  have hscanFile := scanLines_joinNL hcleanFile hfilene hlastFileNe
  refine ⟨?_, ?_, ?_⟩
  · simp only [DeleteSSHHost, hsplit, hdel]
    rfl
  · rw [ParseSSHConfigFile, hscanOut]
    exact parseLinesList_two_blocks a c hwa hwc
  · rw [ParseSSHConfigFile, hscanFile]
    exact parseLinesList_three_blocks a b c hwa hwb hwc

def cexA : SSHHost := ⟨gs "A", gs "1", [], gs "22", [], [], []⟩
def cexB : SSHHost := ⟨gs "B", gs "2", [], gs "22", [], [], []⟩
def cexC : SSHHost := ⟨gs "C", gs "3", [], gs "22", [], [], []⟩
def cexNH : SSHHost := ⟨gs "B2", gs "9", [], gs "22", [], gs "j", []⟩
def wNH : SSHHost := ⟨gs "B2", gs "9", gs "root", [], [], [], [gs "x"]⟩
def cexFile : GoString :=
  goJoin (gs "\n") (addHostLines cexA ++ (addHostLines cexB ++ addHostLines cexC))

/-- C4 counterexample: with a replacement entry carrying a non-empty
ProxyJump, the updated file does not parse back to `[A, B', C]` — the
ProxyJump field of the middle entry is lost, because the update serializer
never writes a ProxyJump line. -/
theorem C4_update_frame_cex :
    (UpdateSSHHost ⟨some cexFile, none⟩ (gs "B") cexNH).2 = OpResult.ok ∧
    ∀ cfg, (UpdateSSHHost ⟨some cexFile, none⟩ (gs "B") cexNH).1.config = some cfg →
      ParseSSHConfigFile cfg ≠ [cexA, cexNH, cexC] := by
  have h := updateThreeBlocksFS cexA cexB cexC cexNH none
    (by decide) (by decide) (by decide) (by decide) (by decide) (by decide)
  have hb : (gs "B") = cexB.Name := rfl
  have hf : cexFile = goJoin (gs "\n")
      (addHostLines cexA ++ (addHostLines cexB ++ addHostLines cexC)) := rfl
  rw [hb, hf]
  constructor
  · rw [h.1]
  · intro cfg hcfg
    rw [h.1] at hcfg
    simp only [Option.some.injEq] at hcfg
    subst hcfg
    rw [h.2.1]
    decide

/-- C4 (amended): update on a three-host file copies the first and third
blocks byte-for-byte — only a fresh blank separator plus the replacement
block substitute the old middle block — and the resulting file parses to
`[A, B'', C]` where `B''` is the replacement as re-parsed: port defaulted to
`"22"` when omitted, and the ProxyJump field dropped (update never emits
it); `A` and `C` re-parse unchanged. -/
theorem C4_update_frame_amended (a b c nh : SSHHost) (bu : Option GoString)
    (hwa : wfEntry a) (hwb : wfEntry b) (hwc : wfEntry c) (hwn : wfEntry nh)
    (hab : a.Name ≠ b.Name) (hcb : c.Name ≠ b.Name)
    (hpa : portDefault a.Port = a.Port) (hpc : portDefault c.Port = c.Port) :
    UpdateSSHHost
        ⟨some (goJoin (gs "\n") (addHostLines a ++ (addHostLines b ++ addHostLines c))), bu⟩
        b.Name nh =
      (⟨some (goJoin (gs "\n")
          (addHostLines a ++ ([] :: (updateBlockLines nh ++ addHostLines c)))),
        some (goJoin (gs "\n") (addHostLines a ++ (addHostLines b ++ addHostLines c)))⟩,
        OpResult.ok) ∧
    ParseSSHConfigFile (goJoin (gs "\n")
        (addHostLines a ++ ([] :: (updateBlockLines nh ++ addHostLines c)))) =
      [a, parsedUpd nh, c] ∧
    ParseSSHConfigFile (goJoin (gs "\n")
        (addHostLines a ++ (addHostLines b ++ addHostLines c))) =
      [a, parsedAdd b, c] := by
  have h := updateThreeBlocksFS a b c nh bu hwa hwb hwc hwn hab hcb
  rw [parsedAdd_eq_self hpa, parsedAdd_eq_self hpc] at h
  exact h

theorem C4_update_frame_amended_witness :
    ParseSSHConfigFile (goJoin (gs "\n")
        (addHostLines cexA ++ ([] :: (updateBlockLines wNH ++ addHostLines cexC)))) =
      [cexA, parsedUpd wNH, cexC] :=
  (C4_update_frame_amended cexA cexB cexC wNH none (by decide) (by decide) (by decide)
    (by decide) (by decide) (by decide) (by decide) (by decide)).2.1

/-- C6 counterexample: a `# Tags:` line separated from `Host B` by a blank
line is not part of B's block for the locator, so deleting B leaves it in
place and its tags re-associate to the next remaining host: C's parsed
fields change from no tags to `[t]`. -/
theorem C6_delete_cex :
    (DeleteSSHHost ⟨some (gs "# Tags: t\n\nHost B\n\nHost C\n"), none⟩ (gs "B")).2 =
      OpResult.ok ∧
    (DeleteSSHHost ⟨some (gs "# Tags: t\n\nHost B\n\nHost C\n"), none⟩ (gs "B")).1.config =
      some (gs "# Tags: t\n\nHost C\n") ∧
    ParseSSHConfigFile (gs "# Tags: t\n\nHost B\n\nHost C\n") =
      [⟨gs "B", [], [], gs "22", [], [], [gs "t"]⟩, ⟨gs "C", [], [], gs "22", [], [], []⟩] ∧
    ParseSSHConfigFile (gs "# Tags: t\n\nHost C\n") =
      [⟨gs "C", [], [], gs "22", [], [], [gs "t"]⟩] := by
  have hdel : deleteGo (gs "B") [gs "# Tags: t", [], gs "Host B", [], gs "Host C", []] =
      ([gs "# Tags: t", [], gs "Host C", []], true) := by
    rw [deleteGo_cons_copy (by decide) (by decide),
        deleteGo_cons_copy (by decide) (by decide),
        show ([gs "Host B", [], gs "Host C", []] : List GoString) =
          gs "Host B" :: ([] ++ [[], gs "Host C", []]) from rfl,
        @deleteGo_match_bare (gs "B") (gs "Host B") [] [[], gs "Host C", []]
          (by decide) (fun l hl => absurd hl (List.not_mem_nil l))
          (fun x hx => by
            obtain rfl : x = [] := (Option.some.inj hx).symm
            rfl),
        show skipOneBlank [[], gs "Host C", []] = [gs "Host C", []] from rfl,
        deleteGo_cons_copy (by decide) (by decide),
        deleteGo_cons_copy (by decide) (by decide),
        deleteGo_nil]
  have hsp : splitNL (gs "# Tags: t\n\nHost B\n\nHost C\n") =
      [gs "# Tags: t", [], gs "Host B", [], gs "Host C", []] := by decide
  refine ⟨?_, ?_, by decide, by decide⟩
  · simp only [DeleteSSHHost, hsp, hdel]
    rfl
  · simp only [DeleteSSHHost, hsp, hdel]
    decide

/-- C6 (amended): on a file of separated host blocks with distinct names,
delete removes exactly the target's block (tags annotation included when it
directly precedes the Host line) plus the single blank separator after it,
leaves every other line byte-identical, and the remaining hosts re-parse
with unchanged fields in their original order.  The original claim fails
when a pending `# Tags:` line is separated from the deleted `Host` line by a
blank line: the line survives the delete and its tags re-associate to the
next host (see the counterexample). -/
theorem C6_delete_amended (a b c : SSHHost) (bu : Option GoString)
    (hwa : wfEntry a) (hwb : wfEntry b) (hwc : wfEntry c)
    (hab : a.Name ≠ b.Name) (hcb : c.Name ≠ b.Name)
    (hpa : portDefault a.Port = a.Port) (hpc : portDefault c.Port = c.Port) :
    DeleteSSHHost
        ⟨some (goJoin (gs "\n") (addHostLines a ++ (addHostLines b ++ addHostLines c))), bu⟩
        b.Name =
      (⟨some (goJoin (gs "\n") (addHostLines a ++ addHostLines c)),
        some (goJoin (gs "\n") (addHostLines a ++ (addHostLines b ++ addHostLines c)))⟩,
        OpResult.ok) ∧
    ParseSSHConfigFile (goJoin (gs "\n") (addHostLines a ++ addHostLines c)) = [a, c] ∧
    ParseSSHConfigFile (goJoin (gs "\n")
        (addHostLines a ++ (addHostLines b ++ addHostLines c))) =
      [a, parsedAdd b, c] := by
  have h := deleteThreeBlocksFS a b c bu hwa hwb hwc hab hcb
  rw [parsedAdd_eq_self hpa, parsedAdd_eq_self hpc] at h
  exact h

theorem C6_delete_amended_witness :
    ParseSSHConfigFile (goJoin (gs "\n") (addHostLines cexA ++ addHostLines cexC)) =
      [cexA, cexC] :=
  (C6_delete_amended cexA cexB cexC none (by decide) (by decide) (by decide)
    (by decide) (by decide) (by decide) (by decide)).2.1

/-- Whether the parser would read a line as a `ProxyJump` directive: its first
whitespace-separated field, lowered, is `proxyjump`. -/
def isProxyJumpDirLine (l : GoString) : Bool :=
  match goFields (goTrimSpace l) with
  | t :: _ => goToLower t == gs "proxyjump"
  | [] => false

theorem isProxyJumpDirLine_dirLine {kw : GoString} (v : GoString) (hkw : isToken kw) :
    isProxyJumpDirLine (dirLine kw v) = (goToLower kw == gs "proxyjump") := by
  have hh := goFields_dirLine_head v hkw
  rcases hf : goFields (goTrimSpace (dirLine kw v)) with _ | ⟨t, rest⟩
  · rw [hf] at hh; simp at hh
  · rw [hf] at hh
    simp only [List.head?_cons, Option.some.injEq] at hh
    subst hh
    rw [isProxyJumpDirLine, hf]

theorem isProxyJumpDirLine_tagsLineOf (ts : List GoString) :
    isProxyJumpDirLine (tagsLineOf ts) = false := by
  obtain ⟨t, rest, ht⟩ := goFields_tagsLineOf_head ts
  rw [isProxyJumpDirLine, ht]
  have := @goToLower_hash_head t "proxyjump" (Or.inr rfl)
  simpa using this

theorem isProxyJumpDirLine_hostDecl {n : GoString} (hn : isToken n) :
    isProxyJumpDirLine (hostDeclLine n) = false := by
  rw [isProxyJumpDirLine, goFields_hostDecl hn]
  exact (by decide : (goToLower (gs "Host") == gs "proxyjump") = false)

/-- C5: ProxyJump asymmetry.  For any replacement entry with a non-empty
proxyJump field, the block `UpdateSSHHost` writes contains no line that the
parser would read as a `ProxyJump` directive, whereas the block `AddSSHHost`
writes for the same entry does contain one. -/
theorem C5_proxyjump_asymmetry (h : SSHHost)
    (hname : isToken h.Name) (hpj : h.ProxyJump ≠ []) :
    (∀ l ∈ updateBlockLines h, isProxyJumpDirLine l = false) ∧
    (∃ l ∈ addHostLines h, isProxyJumpDirLine l = true) := by
  constructor
  · intro l hl
    rcases updateBlockLines_cases hl with rfl | ⟨_, rfl⟩ | rfl | rfl | ⟨_, rfl⟩ | ⟨_, rfl⟩
      | ⟨_, rfl⟩
    · rfl
    · exact isProxyJumpDirLine_tagsLineOf _
    · exact isProxyJumpDirLine_hostDecl hname
    · rw [isProxyJumpDirLine_dirLine _ (by decide)]; decide
    · rw [isProxyJumpDirLine_dirLine _ (by decide)]; decide
    · rw [isProxyJumpDirLine_dirLine _ (by decide)]; decide
    · rw [isProxyJumpDirLine_dirLine _ (by decide)]; decide
  · refine ⟨dirLine (gs "ProxyJump") h.ProxyJump, ?_, ?_⟩
    · simp [addHostLines, hpj]
    · rw [isProxyJumpDirLine_dirLine _ (by decide)]; decide

theorem C5_proxyjump_asymmetry_witness :
    (∀ l ∈ updateBlockLines cexNH, isProxyJumpDirLine l = false) ∧
    (∃ l ∈ addHostLines cexNH, isProxyJumpDirLine l = true) :=
  C5_proxyjump_asymmetry cexNH (by decide) (by decide)

/-- C7 counterexample: second-field equality alone does not make the locator
match.  The line made of the word Host, a tab and `B` has second whitespace
field `B`, yet the bare branch rejects it (the literal prefix `Host ` with a
space is required); the line `Host  B` with two spaces has second field `B`,
yet the tags-annotated branch rejects it (exact whole-line equality with
`Host B` is required). -/
theorem C7_locator_cex :
    (goFields (goTrimSpace (gs "Host\tB")))[1]? = some (gs "B") ∧
    hostLineMatches (gs "B") (gs "Host\tB") = false ∧
    (goFields (goTrimSpace (gs "Host  B")))[1]? = some (gs "B") ∧
    tagsNextMatches (gs "B") (gs "Host  B") = false := by
  decide

/-- C7 amended: the bare branch matches exactly when the trimmed line starts
with the literal `Host ` (single space) and its second whitespace field equals
the name; the tags-annotated branch matches exactly when the trimmed next line
is literally `Host <name>`, which in turn forces its second whitespace field to
equal the name.  Neither branch ever matches a declaration of a different
token name (so no prefix matching on the name), but second-field equality by
itself is not sufficient. -/
theorem C7_locator_amended (name l next m : GoString) (hn : isToken name)
    (hm : isToken m) (hne : m ≠ name) :
    (hostLineMatches name l = true ↔
       (goStartsWith (gs "Host ") (goTrimSpace l) = true ∧
        (goFields (goTrimSpace l))[1]? = some name)) ∧
    (tagsNextMatches name next = true ↔ goTrimSpace next = gs "Host " ++ name) ∧
    (tagsNextMatches name next = true →
       (goFields (goTrimSpace next))[1]? = some name) ∧
    (hostLineMatches name (hostDeclLine m) = false ∧
     tagsNextMatches name (hostDeclLine m) = false) := by
  refine ⟨?_, ?_, ?_, hostLineMatches_hostDecl hm hne, tagsNextMatches_hostDecl hm hne⟩
  · simp [hostLineMatches]
  · simp [tagsNextMatches]
  · intro h
    have heq : goTrimSpace next = gs "Host " ++ name := by
      simpa [tagsNextMatches] using h
    rw [heq, ← goTrimSpace_hostDecl hn, goFields_hostDecl hn]
    rfl

/-- Witness for C7 at concrete inputs: name `B`, a matching raw line, a
matching next line with surrounding whitespace, and the distinct token name
`BX` that extends `B` and is matched by neither branch. -/
theorem C7_locator_amended_witness :
    (hostLineMatches (gs "B") (gs "  Host B") = true ↔
       (goStartsWith (gs "Host ") (goTrimSpace (gs "  Host B")) = true ∧
        (goFields (goTrimSpace (gs "  Host B")))[1]? = some (gs "B"))) ∧
    (tagsNextMatches (gs "B") (gs " Host B ") = true ↔
       goTrimSpace (gs " Host B ") = gs "Host " ++ gs "B") ∧
    (tagsNextMatches (gs "B") (gs " Host B ") = true →
       (goFields (goTrimSpace (gs " Host B ")))[1]? = some (gs "B")) ∧
    (hostLineMatches (gs "B") (hostDeclLine (gs "BX")) = false ∧
     tagsNextMatches (gs "B") (hostDeclLine (gs "BX")) = false) :=
  C7_locator_amended (gs "B") (gs "  Host B") (gs " Host B ") (gs "BX")
    (by decide) (by decide) (by decide)

/-- C8: when no line of the file matches the target host in either locator
branch, `UpdateSSHHost` and `DeleteSSHHost` both fail with not-found and the
config file's content after the call is exactly its content before (the
locate-then-fail happens before any write of the config file). -/
theorem C8_notfound_no_write (fs : FS) (name c : GoString) (nh : SSHHost)
    (hc : fs.config = some c) (hscan : cleanScan name (splitNL c) []) :
    (UpdateSSHHost fs name nh).2 = OpResult.notFound ∧
    (UpdateSSHHost fs name nh).1.config = some c ∧
    (DeleteSSHHost fs name).2 = OpResult.notFound ∧
    (DeleteSSHHost fs name).1.config = some c := by
  have hu := updateGo_clean_notfound nh hscan
  have hd := deleteGo_clean_notfound hscan
  refine ⟨?_, ?_, ?_, ?_⟩ <;> simp [UpdateSSHHost, DeleteSSHHost, hc, hu, hd]

theorem C8_notfound_no_write_witness :
    (UpdateSSHHost ⟨some (gs "Host a\n    HostName 1\n"), none⟩ (gs "b") cexNH).2 =
        OpResult.notFound ∧
    (UpdateSSHHost ⟨some (gs "Host a\n    HostName 1\n"), none⟩ (gs "b") cexNH).1.config =
        some (gs "Host a\n    HostName 1\n") ∧
    (DeleteSSHHost ⟨some (gs "Host a\n    HostName 1\n"), none⟩ (gs "b")).2 =
        OpResult.notFound ∧
    (DeleteSSHHost ⟨some (gs "Host a\n    HostName 1\n"), none⟩ (gs "b")).1.config =
        some (gs "Host a\n    HostName 1\n") :=
  C8_notfound_no_write ⟨some (gs "Host a\n    HostName 1\n"), none⟩ (gs "b")
    (gs "Host a\n    HostName 1\n") cexNH rfl (by decide)

theorem goString_getLast_append {a b : GoString} (hb : b ≠ []) :
    (a ++ b).getLast? = b.getLast? := by
  induction a with
  | nil => rfl
  | cons c a ih =>
    cases hab : a ++ b with
    | nil => exact absurd (List.append_eq_nil.mp hab).2 hb
    | cons d ds =>
      rw [List.cons_append, hab, List.getLast?_cons_cons, ← hab]
      exact ih

theorem getLast?_cons_some : ∀ (c : Char) (l : GoString), ∃ x, (c :: l).getLast? = some x
  | c, [] => ⟨c, rfl⟩
  | c, d :: l => by
    obtain ⟨x, hx⟩ := getLast?_cons_some d l
    exact ⟨x, by rw [List.getLast?_cons_cons, hx]⟩

/-- A whitespace-trimmed line that starts with the literal `Host ` must carry a
non-space character after that prefix: otherwise the trimmed line would end in
whitespace, which right-trimming forbids. -/
theorem trimmed_suffix_not_all_space (l r : GoString)
    (hr : goTrimSpace l = gs "Host " ++ r) : ∃ c ∈ r, goIsSpace c = false := by
  by_contra hall
  push_neg at hall
  have hall2 : ∀ c ∈ r, goIsSpace c = true := by
    intro c hc
    cases hb : goIsSpace c
    · exact absurd hb (hall c hc)
    · rfl
  cases r with
  | nil =>
    have hgl : (goTrimRight (goTrimLeft l)).getLast? = some ' ' := by
      rw [show goTrimRight (goTrimLeft l) = goTrimSpace l from rfl, hr]
      decide
    have hns := goTrimRight_getLast_not_space (goTrimLeft l) ' ' hgl
    exact absurd hns (by decide)
  | cons c0 cs0 =>
    obtain ⟨x, hx⟩ := getLast?_cons_some c0 cs0
    have hxm : x ∈ (c0 :: cs0 : GoString) := getLast?_mem hx
    have hglast : (goTrimRight (goTrimLeft l)).getLast? = some x := by
      rw [show goTrimRight (goTrimLeft l) = goTrimSpace l from rfl, hr,
          goString_getLast_append (by simp), hx]
    have hns := goTrimRight_getLast_not_space (goTrimLeft l) x hglast
    rw [hall2 x hxm] at hns
    exact Bool.noConfusion hns

/-- C9: the index `strings.Fields(line)[1]` in the bare-Host locating branches
is always in bounds.  Whenever the whitespace-trimmed line has the prefix
`Host ` (guaranteed by the guard that precedes the index in update and
delete), the trimmed line carries a non-space character after the prefix, so
`Fields` of the trimmed line has at least two tokens and index 1 is safe. -/
theorem C9_fields_index_safe (l : GoString)
    (h : goStartsWith (gs "Host ") (goTrimSpace l) = true) :
    2 ≤ (goFields (goTrimSpace l)).length ∧
    ∃ tok, (goFields (goTrimSpace l))[1]? = some tok := by
  obtain ⟨r, hr⟩ := goStartsWith_iff.mp h
  obtain ⟨c, hcm, hcs⟩ := trimmed_suffix_not_all_space l r hr
  have hfr : goFields r ≠ [] := goFields_ne_nil ⟨c, hcm, hcs⟩
  have hsplit : goFields (goTrimSpace l) = gs "Host" :: goFields r := by
    rw [hr, show (gs "Host " ++ r) = gs "Host" ++ ' ' :: r from rfl,
        goFields_token_cons_space (by decide), goFields_space_cons (by decide)]
  cases hfr2 : goFields r with
  | nil => exact absurd hfr2 hfr
  | cons t ts =>
    rw [hsplit, hfr2]
    refine ⟨?_, t, by simp⟩
    simp only [List.length_cons]
    omega

theorem C9_fields_index_safe_witness :
    2 ≤ (goFields (goTrimSpace (gs " Host b extra "))).length ∧
    ∃ tok, (goFields (goTrimSpace (gs " Host b extra ")))[1]? = some tok :=
  C9_fields_index_safe (gs " Host b extra ") (by decide)
